import Mathlib

set_option maxRecDepth 20000

/-! Shallow embedding of the UnrealScript fixer core found in
    UnrealScripFixer.py: the Issue model, the lexical scanners, the
    detectors, the repair closures and the scan orchestrator.  Documents
    are lists of characters; the embedding treats ASCII text whose line
    terminator is the LF character, and the ASCII parts of the host
    regular-expression classes for whitespace and word characters. -/

def lbrace : Char := Char.ofNat 123

def rbrace : Char := Char.ofNat 125

def squote : Char := Char.ofNat 39

def dquote : Char := Char.ofNat 34

/-- ASCII whitespace, the whitespace class used by the line rules. -/
def pySpace (c : Char) : Bool :=
  c = ' ' || c = '\t' || c = '\n' || c = '\x0d' || c = '\x0b' || c = '\x0c'

/-- ASCII word characters: letters, digits and underscore. -/
def wordChar (c : Char) : Bool := c.isAlpha || c.isDigit || c = '_'

/-- One detected defect: tag, human message, 1-based anchor line,
    half-open offset span and the optional repair closure
    (the apply_fn field of the Python Issue dataclass). -/
structure Issue where
  kind : String
  message : String
  line : Nat
  span : Nat × Nat
  fix_preview : Option String
  apply_fn : Option (List Char → List Char)

/-- Key used by the orchestrator to collapse duplicate findings. -/
def issueKey (i : Issue) : String × Nat × String × (Nat × Nat) :=
  (i.kind, i.line, i.message, i.span)

/-- Keep-ends line splitting, as splitlines(True) behaves on LF text. -/
def splitAux : List Char → List Char → List (List Char)
  | [], acc => if acc.isEmpty then [] else [acc.reverse]
  | c :: cs, acc =>
    if c = '\n' then (acc.reverse ++ ['\n']) :: splitAux cs []
    else splitAux cs (c :: acc)

def splitlinesKeep (cs : List Char) : List (List Char) := splitAux cs []

def joinL (ls : List (List Char)) : List Char := ls.flatten

/-- Drop trailing characters satisfying p (the rstrip operation). -/
def dropTrailing (p : Char → Bool) (cs : List Char) : List Char :=
  (cs.reverse.dropWhile p).reverse

/-- Strip leading and trailing whitespace (the strip operation). -/
def pyStrip (cs : List Char) : List Char :=
  dropTrailing pySpace (cs.dropWhile pySpace)

/-- Insert an element at an index, clamping to the end when the index is
    past the end, as the Python list insert method does. -/
def pyInsertIdx (l : List (List Char)) (i : Nat) (a : List Char) :
    List (List Char) :=
  l.take i ++ [a] ++ l.drop i

/-! Lexical skipper.  The scanning loops of extended_unmatched_close_paren
    and extended_unmatched_open_paren advance a cursor over the document,
    skipping line comments, block comments and quoted strings.  Their
    two-character lookahead is rendered here as a character-at-a-time
    state machine: codeSlash stands for code with a pending bare slash,
    blockStar for a block comment with a pending star, strEsc for a
    string with a pending backslash (whose escaped character is consumed
    without line counting, exactly as the skip_string helper advances
    two characters at once). -/
inductive LexMode where
  | code : LexMode
  | codeSlash : LexMode
  | lineC : LexMode
  | block : LexMode
  | blockStar : LexMode
  | strQ : Char → LexMode
  | strEsc : Char → LexMode
deriving DecidableEq

/-- Cursor positions in code or code-after-bare-slash state see live
    structural characters; all other states are inside a comment or a
    string literal. -/
def isCodeCtx : LexMode → Bool
  | .code => true
  | .codeSlash => true
  | _ => false

/-- One step of the lexical state machine. -/
def lexAdvance : LexMode → Char → LexMode
  | .code, c =>
    if c = '/' then .codeSlash
    else if c = squote || c = dquote then .strQ c
    else .code
  | .codeSlash, c =>
    if c = '/' then .lineC
    else if c = '*' then .block
    else if c = squote || c = dquote then .strQ c
    else if c = '/' then .codeSlash
    else .code
  | .lineC, c => if c = '\n' then .code else .lineC
  | .block, c => if c = '*' then .blockStar else .block
  | .blockStar, c =>
    if c = '/' then .code
    else if c = '*' then .blockStar
    else .block
  | .strQ q, c =>
    if c = '\\' then .strEsc q
    else if c = q then .code
    else .strQ q
  | .strEsc q, _ => .strQ q

/-- Whether the newline at this cursor position is counted: every state
    counts a newline except the escaped position inside a string, which
    the skip_string helper jumps over without counting. -/
def lexLineInc : LexMode → Char → Bool
  | .strEsc _, _ => false
  | _, c => c = '\n'

/-- Mode and line number after scanning a character list. -/
def lexML : List Char → LexMode × Nat → LexMode × Nat
  | [], s => s
  | c :: cs, (m, l) =>
    lexML cs (lexAdvance m c, if lexLineInc m c then l + 1 else l)

/-- Scanning loop of extended_unmatched_close_paren: first live close
    parenthesis at depth zero, as (offset, line), or none. -/
def closeScan : List Char → Nat → Nat → LexMode → Nat → Option (Nat × Nat)
  | [], _, _, _, _ => none
  | c :: cs, p, l, m, d =>
    if isCodeCtx m && c = ')' then
      if d = 0 then some (p, l)
      else closeScan cs (p + 1) l (lexAdvance m c) (d - 1)
    else if isCodeCtx m && c = '(' then
      closeScan cs (p + 1) l (lexAdvance m c) (d + 1)
    else
      closeScan cs (p + 1) (if lexLineInc m c then l + 1 else l)
        (lexAdvance m c) d

/-- Mode, line and depth after a close-paren scan that found nothing. -/
def closeAfter : List Char → LexMode × Nat × Nat → LexMode × Nat × Nat
  | [], s => s
  | c :: cs, (m, l, d) =>
    if isCodeCtx m && c = ')' then closeAfter cs (lexAdvance m c, l, d - 1)
    else if isCodeCtx m && c = '(' then
      closeAfter cs (lexAdvance m c, l, d + 1)
    else
      closeAfter cs (lexAdvance m c, (if lexLineInc m c then l + 1 else l), d)

/-- Scanning loop of extended_unmatched_open_paren: the stack of still
    unmatched live open parentheses, most recent first, each recorded as
    (offset, line). -/
def openScan : List Char → Nat → Nat → LexMode → List (Nat × Nat) →
    List (Nat × Nat)
  | [], _, _, _, st => st
  | c :: cs, p, l, m, st =>
    if isCodeCtx m && c = '(' then
      openScan cs (p + 1) l (lexAdvance m c) ((p, l) :: st)
    else if isCodeCtx m && c = ')' then
      openScan cs (p + 1) l (lexAdvance m c) st.tail
    else
      openScan cs (p + 1) (if lexLineInc m c then l + 1 else l)
        (lexAdvance m c) st

/-- Mirrors extended_unmatched_close_paren: one issue at most, deleting
    the first truly unmatched close parenthesis outside comments and
    strings. -/
def extended_unmatched_close_paren (doc : List Char) : List Issue :=
  match closeScan doc 0 1 .code 0 with
  | some (idx, ln) =>
    [⟨"paren-extra-close", "Unmatched ')' at line " ++ toString ln ++ ".",
      ln, (idx, idx + 1), none,
      some (fun t => t.take idx ++ t.drop (idx + 1))⟩]
  | none => []

/-- Mirrors extended_unmatched_open_paren: one issue at most, deleting
    the rightmost unmatched open parenthesis outside comments and
    strings. -/
def extended_unmatched_open_paren (doc : List Char) : List Issue :=
  match (openScan doc 0 1 .code []).head? with
  | some (idx, ln) =>
    [⟨"paren-extra-open", "Unmatched '(' at line " ++ toString ln ++ ".",
      ln, (idx, idx + 1), none,
      some (fun t => t.take idx ++ t.drop (idx + 1))⟩]
  | none => []

/-! Word-level pattern helpers shared by the rule-table patterns. -/

def lowerList (cs : List Char) : List Char := cs.map Char.toLower

/-- The given lowercase keyword starts here, case-insensitively, and is
    followed by a word boundary. -/
def kwAtStart (kw : List Char) (cs : List Char) : Bool :=
  lowerList (cs.take kw.length) = kw &&
    (match cs.drop kw.length with
     | [] => true
     | c :: _ => !(wordChar c))

/-- All start offsets of whole-word, case-insensitive occurrences of the
    keyword, scanning left to right and resuming after each match, as
    finditer does.  The fuel argument is the remaining character count. -/
def findWordAuxF (kw : List Char) :
    Nat → List Char → Nat → Bool → List Nat
  | 0, _, _, _ => []
  | _ + 1, [], _, _ => []
  | fuel + 1, c :: cs, p, prevW =>
    if !prevW && kwAtStart kw (c :: cs) then
      p :: findWordAuxF kw fuel (List.drop (kw.length - 1) cs)
        (p + kw.length) true
    else findWordAuxF kw fuel cs (p + 1) (wordChar c)

def findWordAll (kw : List Char) (cs : List Char) : List Nat :=
  findWordAuxF kw cs.length cs 0 false

def hasWord (kw : List Char) (cs : List Char) : Bool :=
  !(findWordAll kw cs).isEmpty

/-- The top-level construct keywords of the rule table. -/
def topLevelKws : List (List Char) :=
  [("class").data, ("function").data, ("event").data, ("state").data,
   ("defaultproperties").data, ("var").data, ("struct").data,
   ("enum").data, ("cpptext").data, ("replication").data]

/-- A top-level token pattern matches at this suffix: optional
    whitespace, then one of the keywords at a word boundary. -/
def topLevelFrom (cs : List Char) : Bool :=
  topLevelKws.any (fun k => kwAtStart k (cs.dropWhile pySpace))

/-- Search loop for the multiline-anchored top-level token pattern:
    first line-start offset from which the pattern matches. -/
def tlAux : List Char → Nat → Bool → Option Nat
  | [], _, _ => none
  | c :: cs, p, ls =>
    if ls && topLevelFrom (c :: cs) then some p
    else tlAux cs (p + 1) (c = '\n')

def topLevelSearch (cs : List Char) : Option Nat := tlAux cs 0 true

/-! Strict detectors. -/

/-- Line is blank or a pure line comment (the skip pattern used while
    looking for the brace after a cpptext keyword line). -/
def blankOrComment (line : List Char) : Bool :=
  let t := line.dropWhile pySpace
  t.isEmpty ||
    (t.take 2 = ['/', '/'] &&
      (match (t.drop 2).dropWhile (fun c => !(c = '\n')) with
       | [] => true
       | [c] => c = '\n'
       | _ => false))

/-- Line starts, after optional whitespace, with an open brace. -/
def startsOpenBrace (line : List Char) : Bool :=
  (line.dropWhile pySpace).head? = some lbrace

/-- Repair closure of the cpptext issue: re-split the given text and
    insert an open-brace line right after the captured anchor line. -/
def cpptextApply (anchor : Nat) (t : List Char) : List Char :=
  joinL (pyInsertIdx (splitlinesKeep t) anchor (("\x7b\n").data))

def cpptextMsg (n : Nat) : String :=
  "Missing '\x7b' after 'cpptext' at line " ++ toString n ++ "."

/-- Line-by-line loop of find_cpptext_missing_brace. -/
def cpptextGo : List (List Char) → Nat → Nat → List Issue
  | [], _, _ => []
  | line :: rest, lineNo, offs =>
    if hasWord (("cpptext").data) line then
      if lbrace ∈ line then cpptextGo rest (lineNo + 1) (offs + line.length)
      else
        let nextLine := (rest.dropWhile blankOrComment).headD []
        if !(startsOpenBrace nextLine) then
          ⟨"cpptext-brace", cpptextMsg lineNo, lineNo,
            (offs, offs + line.length), none, some (cpptextApply lineNo)⟩ ::
            cpptextGo rest (lineNo + 1) (offs + line.length)
        else cpptextGo rest (lineNo + 1) (offs + line.length)
    else cpptextGo rest (lineNo + 1) (offs + line.length)

/-- Mirrors find_cpptext_missing_brace. -/
def find_cpptext_missing_brace (doc : List Char) : List Issue :=
  cpptextGo (splitlinesKeep doc) 1 0

/-- Signed brace surplus of the document, the open_count walk of
    safe_close_balance: plus one per open brace, minus one per close
    brace, over the raw text. -/
def braceDelta (doc : List Char) : Int :=
  (doc.map (fun c =>
    if c = lbrace then (1 : Int) else if c = rbrace then -1 else 0)).sum

/-- Repair closure of the brace-balance issue: recompute the first
    top-level token position in the given text (or its end) and insert a
    close-brace line there. -/
def safeCloseApply (t : List Char) : List Char :=
  let ia := (topLevelSearch t).getD t.length
  t.take ia ++ [rbrace, '\n'] ++ t.drop ia

/-- Mirrors safe_close_balance. -/
def safe_close_balance (doc : List Char) : List Issue :=
  if braceDelta doc < 0 then
    [⟨"brace-balance", "Too many '\x7d' braces found.", 1,
      (0, min 50 doc.length), none, none⟩]
  else if 0 < braceDelta doc then
    [⟨"brace-balance", "Unbalanced braces: more '\x7b' than '\x7d'.", 1,
      (0, min 50 doc.length), none, some safeCloseApply⟩]
  else []

def dpWord : List Char := ("defaultproperties").data

def dpMsg (n : Nat) : String :=
  "'defaultproperties' at line " ++ toString n ++
    " should be followed by '\x7b...\x7d'."

/-- Repair closure of the defaultprops issue: insert an empty brace
    block at the offset captured when the keyword was matched. -/
def dpApply (pos : Nat) (t : List Char) : List Char :=
  t.take pos ++ (" \x7b\n\x7d\n").data ++ t.drop pos

/-- Mirrors check_defaultproperties. -/
def check_defaultproperties (doc : List Char) : List Issue :=
  (findWordAll dpWord doc).filterMap (fun p =>
    let e := p + dpWord.length
    if ((doc.drop e).dropWhile pySpace).head? = some lbrace then none
    else
      some ⟨"defaultprops-brace", dpMsg ((doc.take p).count '\n' + 1),
        (doc.take p).count '\n' + 1,
        (p - 5, min doc.length (e + 5)), none, some (dpApply e)⟩)

/-! Semicolon detector.  The two line grammars are rendered as explicit
    backtracking matchers over the stripped line. -/

/-- Tail of the optional assignment part and end anchor: either nothing
    remains, or optional whitespace, an equals sign, and a nonempty
    remainder free of semicolons. -/
def eqTail (s : List Char) : Bool :=
  s.isEmpty ||
    (match s.dropWhile pySpace with
     | '=' :: r => !r.isEmpty && !(r.contains ';')
     | _ => false)

/-- Mandatory declared-name part: whitespace, then a nonempty run of
    word or bracket characters, then the optional assignment tail. -/
def nameTail (s : List Char) : Bool :=
  match s with
  | c :: _ =>
    pySpace c &&
      (match s.dropWhile pySpace with
       | d :: _ =>
         (wordChar d || d = '[' || d = ']') &&
           eqTail ((s.dropWhile pySpace).dropWhile
             (fun x => wordChar x || x = '[' || x = ']'))
       | [] => false)
  | [] => false

/-- Zero or more specifier groups (whitespace plus a word, or a
    parenthesized group), then the declared-name part.  Fueled by the
    remaining length so the definition stays structurally recursive. -/
def varTailF : Nat → List Char → Bool
  | 0, _ => false
  | fuel + 1, s =>
    nameTail s ||
      (match s with
       | c :: rest =>
         if pySpace c then
           (match s.dropWhile pySpace with
            | d :: _ =>
              wordChar d &&
                varTailF fuel
                  ((s.dropWhile pySpace).dropWhile wordChar)
            | [] => false)
         else if c = '(' then
           let body := rest.takeWhile (fun x => !(x = ')'))
           decide (body.length < rest.length) &&
             varTailF fuel (rest.drop (body.length + 1))
         else false
       | [] => false)

/-- The var-declaration line grammar of check_semicolons_strict. -/
def varDeclMatch (s : List Char) : Bool :=
  lowerList (s.take 3) = ("var").data && varTailF (s.length + 1) (s.drop 3)

/-- The simple-assignment line grammar of check_semicolons_strict:
    an identifier, optional whitespace, an equals sign, and a nonempty
    semicolon-free remainder. -/
def assignMatch (s : List Char) : Bool :=
  match s with
  | c :: cs =>
    (c.isAlpha || c = '_') &&
      (match (cs.dropWhile wordChar).dropWhile pySpace with
       | '=' :: r => !r.isEmpty && !(r.contains ';')
       | _ => false)
  | [] => false

/-- First offset of a double-slash pair in a line body. -/
def findSlashSlash : List Char → Option Nat
  | [] => none
  | c :: cs =>
    if c = '/' && cs.head? = some '/' then some 0
    else (findSlashSlash cs).map (· + 1)

def semiMsg (n : Nat) : String :=
  "Likely missing ';' at line " ++ toString n ++ "."

/-- Repair closure of the semicolon issue: re-split the given text; if
    the captured anchor line is out of range the text is rebuilt
    unchanged; if it already ends in a semicolon after stripping, the
    text is returned unchanged; otherwise the semicolon is appended
    before any trailing line comment and the line is re-terminated. -/
def semiApply (anchor : Nat) (t : List Char) : List Char :=
  let d := splitlinesKeep t
  let idx := anchor - 1
  match d[idx]? with
  | none => joinL d
  | some ln =>
    if (dropTrailing pySpace ln).getLast? = some ';' then t
    else
      let body := dropTrailing (fun c => c = '\n') ln
      let newLn :=
        match findSlashSlash body with
        | some k =>
          dropTrailing pySpace (body.take k) ++ [';'] ++ body.drop k ++ ['\n']
        | none => dropTrailing pySpace body ++ [';', '\n']
      joinL (d.set idx newLn)

/-- Line-by-line loop of check_semicolons_strict. -/
def semiGo : List (List Char) → Nat → Nat → List Issue
  | [], _, _ => []
  | line :: rest, lineNo, offs =>
    let stripped := pyStrip line
    if stripped.isEmpty || stripped.take 2 = ['/', '/'] ||
        stripped.getLast? = some lbrace || stripped.getLast? = some rbrace ||
        stripped.take 2 = ['/', '*'] then
      semiGo rest (lineNo + 1) (offs + line.length)
    else if (varDeclMatch stripped || assignMatch stripped) &&
        !(stripped.getLast? = some ';') then
      ⟨"semicolon-missing", semiMsg lineNo, lineNo,
        (offs, offs + line.length), none, some (semiApply lineNo)⟩ ::
        semiGo rest (lineNo + 1) (offs + line.length)
    else semiGo rest (lineNo + 1) (offs + line.length)

/-- Mirrors check_semicolons_strict. -/
def check_semicolons_strict (doc : List Char) : List Issue :=
  semiGo (splitlinesKeep doc) 1 0

/-! Extended detectors. -/

/-- The control-line pattern: optional leading whitespace, one of the
    control keywords case-insensitively, optional whitespace, an open
    parenthesis. -/
def isCtrlLine (line : List Char) : Bool :=
  let t := line.dropWhile pySpace
  [("if").data, ("while").data, ("for").data].any (fun k =>
    lowerList (t.take k.length) = k &&
      ((t.drop k.length).dropWhile pySpace).head? = some '(')

def ctrlMsg (n : Nat) : String :=
  "Control statement may be missing a ')' at line " ++ toString n ++ "."

/-- Repair closure of the control-paren issue: re-split the given text
    and append a close parenthesis to the captured anchor line, before
    any trailing line comment.  An out-of-range anchor, which raises in
    the host and is suppressed by every caller, is modelled as the
    identity. -/
def ctrlApply (anchor : Nat) (t : List Char) : List Char :=
  let d := splitlinesKeep t
  let idx := anchor - 1
  match d[idx]? with
  | none => t
  | some ln =>
    let s := dropTrailing (fun c => c = '\n') ln
    let s2 :=
      match findSlashSlash s with
      | some k => dropTrailing pySpace (s.take k) ++ [')', ' '] ++ s.drop k
      | none => dropTrailing pySpace s ++ [')']
    joinL (d.set idx (s2 ++ ['\n']))

/-- Line-by-line loop of extended_control_paren_balance. -/
def ctrlGo : List (List Char) → Nat → Nat → List Issue
  | [], _, _ => []
  | line :: rest, lineNo, offs =>
    if isCtrlLine line && line.count '(' = line.count ')' + 1 then
      ⟨"paren-control-close", ctrlMsg lineNo, lineNo,
        (offs, offs + line.length), none, some (ctrlApply lineNo)⟩ ::
        ctrlGo rest (lineNo + 1) (offs + line.length)
    else ctrlGo rest (lineNo + 1) (offs + line.length)

/-- Mirrors extended_control_paren_balance. -/
def extended_control_paren_balance (doc : List Char) : List Issue :=
  ctrlGo (splitlinesKeep doc) 1 0

/-- Offset just past the last open brace of a list, if any. -/
def lastOpenBrace : List Char → Option Nat
  | [] => none
  | c :: cs =>
    match lastOpenBrace cs with
    | some j => some (j + 1)
    | none => if c = lbrace then some 0 else none

/-- The struct-or-enum header pattern at a line-start suffix: optional
    whitespace, the keyword at a word boundary, then the rest of that
    line up to its last open brace.  Returns the match length and the
    keyword text as matched. -/
def seTry (k u : List Char) : Option (Nat × String) :=
  let w := u.dropWhile pySpace
  if kwAtStart k w then
    match lastOpenBrace ((w.drop k.length).takeWhile
        (fun c => !(c = '\n'))) with
    | some j =>
      some (u.length - w.length + k.length + j + 1,
        String.mk (w.take k.length))
    | none => none
  else none

def seMatchAt (u : List Char) : Option (Nat × String) :=
  match seTry (("struct").data) u with
  | some r => some r
  | none => seTry (("enum").data) u

/-- Non-overlapping header matches, as (start, stop, keyword), resuming
    after each match.  Fueled by the remaining character count. -/
def seScanF : Nat → List Char → Nat → Bool → List (Nat × Nat × String)
  | 0, _, _, _ => []
  | _ + 1, [], _, _ => []
  | fuel + 1, c :: cs, p, ls =>
    if ls then
      match seMatchAt (c :: cs) with
      | some r =>
        (p, p + r.1, r.2) ::
          seScanF fuel (List.drop (r.1 - 1) cs) (p + r.1) false
      | none => seScanF fuel cs (p + 1) (c = '\n')
    else seScanF fuel cs (p + 1) (c = '\n')

/-- Nested-brace walk of extended_struct_enum_closer: advance over the
    suffix counting braces (not comment- or string-aware) until the
    count returns to zero; returns the final cursor (just past the
    closing brace, or just past the last brace seen when the text runs
    out) and the final count. -/
def braceWalk : List Char → Nat → Nat → Nat → Nat × Nat
  | [], _, cnt, lastStop => (lastStop, cnt)
  | c :: cs, p, cnt, lastStop =>
    if c = lbrace then braceWalk cs (p + 1) (cnt + 1) (p + 1)
    else if c = rbrace then
      if cnt = 1 then (p + 1, 0) else braceWalk cs (p + 1) (cnt - 1) (p + 1)
    else braceWalk cs (p + 1) cnt lastStop

def seMsg (kw : String) (n : Nat) : String :=
  "Missing '\x7d' to close " ++ kw ++ " block starting at line " ++
    toString n ++ "."

/-- Repair closure of the struct-enum issue: insert a close-brace line
    at the offset captured at detection time. -/
def seApply (ia : Nat) (t : List Char) : List Char :=
  t.take ia ++ [rbrace, '\n'] ++ t.drop ia

/-- Mirrors extended_struct_enum_closer. -/
def extended_struct_enum_closer (doc : List Char) : List Issue :=
  (seScanF doc.length doc 0 true).filterMap (fun m =>
    let w := braceWalk (doc.drop m.2.1) m.2.1 1 m.2.1
    if w.2 = 0 then none
    else
      let ia :=
        match topLevelSearch (doc.drop w.1) with
        | some k => w.1 + k
        | none => doc.length
      some ⟨"struct-enum-close",
        seMsg m.2.2 ((doc.take m.1).count '\n' + 1),
        (doc.take m.1).count '\n' + 1, (m.1, m.2.1), none,
        some (seApply ia)⟩)

/-! Scan orchestrator. -/

def parenBalMsg (moreOpen : Bool) : String :=
  "Unbalanced parentheses: " ++
    (if moreOpen then "More '(' than ')'." else "More ')' than '('.")

/-- The concatenated detector output of scan_doc_for_issues before
    deduplication: the strict-safe detectors, the informational global
    parenthesis balance, then the extended detectors when enabled. -/
def rawIssues (doc : List Char) (extended : Bool) : List Issue :=
  find_cpptext_missing_brace doc ++ safe_close_balance doc ++
    check_defaultproperties doc ++ check_semicolons_strict doc ++
    (if doc.count '(' = doc.count ')' then []
     else
       [⟨"paren-balance", parenBalMsg (doc.count ')' < doc.count '('), 1,
         (0, min 50 doc.length), none, none⟩]) ++
    (if extended then
      extended_control_paren_balance doc ++
        extended_struct_enum_closer doc ++
        extended_unmatched_close_paren doc
     else [])

/-- Deduplication loop: keep the first occurrence of every key. -/
def dedupGo (seen : List (String × Nat × String × (Nat × Nat))) :
    List Issue → List Issue
  | [] => []
  | i :: rest =>
    if issueKey i ∈ seen then dedupGo seen rest
    else i :: dedupGo (issueKey i :: seen) rest

/-- Mirrors scan_doc_for_issues. -/
def scan_doc_for_issues (doc : List Char) (extended : Bool) : List Issue :=
  dedupGo [] (rawIssues doc extended)

/-- A scan with the unmatched-open toggle, as the callers of the scan
    compose it: the mode-aware scan, then the open-paren detector when
    the toggle is on, then the same deduplication pass. -/
def scan_with_unmatched (doc : List Char) (extended uo : Bool) :
    List Issue :=
  dedupGo []
    (scan_doc_for_issues doc extended ++
      (if uo then extended_unmatched_open_paren doc else []))

/-! Characterization of the top-level token search. -/

/-- The multiline-anchored top-level pattern matches at offset p of t:
    p is the document start or directly preceded by a newline, and from
    p optional whitespace is followed by a top-level keyword at a word
    boundary. -/
def tlMatchAt (t : List Char) (p : Nat) : Prop :=
  (p = 0 ∨ ∃ u, t.drop (p - 1) = '\n' :: u) ∧
    topLevelFrom (t.drop p) = true

/-- The interior of a block comment never closes it: no star-slash pair
    occurs, tracked with a pending-star flag. -/
def blockOkM : Bool → List Char → Bool
  | _, [] => true
  | false, c :: cs => if c = '*' then blockOkM true cs else blockOkM false cs
  | true, c :: cs =>
    if c = '/' then false
    else if c = '*' then blockOkM true cs
    else blockOkM false cs

/-- The interior of a string never closes it: no unescaped occurrence
    of the quote character (a trailing backslash escapes nothing). -/
def strNoClose (q : Char) : List Char → Bool
  | [] => true
  | [c] => if c = '\\' then true else if c = q then false else true
  | c :: c2 :: cs =>
    if c = '\\' then strNoClose q cs
    else if c = q then false
    else strNoClose q (c2 :: cs)

/-! Comment and string immunity of the paren scanners: a wrapped
    segment (line comment, block comment or string literal) is passed
    over without touching depth, stack or findings, and substituting its
    interior only shifts later offsets. -/

inductive WrapK where
  | lineW : WrapK
  | blockW : WrapK
  | strW : Char → WrapK

def mkWrap : WrapK → List Char → List Char
  | .lineW, c => '/' :: '/' :: (c ++ ['\n'])
  | .blockW, c => '/' :: '*' :: (c ++ ['*', '/'])
  | .strW q, c => q :: (c ++ [q])

/-- A string interior that closes properly at the following quote: no
    unescaped quote and no dangling final backslash. -/
def strOkC (q : Char) : List Char → Bool
  | [] => true
  | [c] => if c = '\\' then false else if c = q then false else true
  | c :: c2 :: cs =>
    if c = '\\' then strOkC q cs
    else if c = q then false
    else strOkC q (c2 :: cs)

/-- Newlines counted by the scanners inside a string interior: escaped
    characters are skipped without counting. -/
def strNl : List Char → Nat
  | [] => 0
  | [c] => if c = '\\' then 0 else if c = '\n' then 1 else 0
  | c :: c2 :: cs =>
    if c = '\\' then strNl cs
    else (if c = '\n' then 1 else 0) + strNl (c2 :: cs)

def wrapOk : WrapK → List Char → Prop
  | .lineW, c => '\n' ∉ c
  | .blockW, c => blockOkM false c = true
  | .strW q, c => (q = squote ∨ q = dquote) ∧ strOkC q c = true

def wrapNl : WrapK → List Char → Nat
  | .lineW, _ => 1
  | .blockW, c => c.count '\n'
  | .strW _, c => strNl c

/-- Relation between stack entries of the two substituted documents:
    equal entries inside the shared prefix, or entries at the same
    offset past the two (differently sized) wrapped segments. -/
def shiftRel (xlen b1 b2 : Nat) (e1 e2 : Nat × Nat) : Prop :=
  e1.2 = e2.2 ∧ ((e1.1 = e2.1 ∧ e1.1 < xlen) ∨
    (b1 ≤ e1.1 ∧ b2 ≤ e2.1 ∧ e1.1 - b1 = e2.1 - b2))

/-- How one paren detector's finding corresponds across the two
    documents: none on both; or the same offset and line inside the
    shared prefix; or the same line and the same relative offset past
    the respective wrapped segments. -/
def issueAtRel (x w1 w2 : List Char) (o1 o2 : List Issue) : Prop :=
  (o1 = [] ∧ o2 = []) ∨
  (∃ p l, p < x.length ∧
    (∃ i ∈ o1, i.span = (p, p + 1) ∧ i.line = l) ∧
    (∃ i ∈ o2, i.span = (p, p + 1) ∧ i.line = l)) ∨
  (∃ j l,
    (∃ i ∈ o1, i.span = (x.length + w1.length + j,
      x.length + w1.length + j + 1) ∧ i.line = l) ∧
    (∃ i ∈ o2, i.span = (x.length + w2.length + j,
      x.length + w2.length + j + 1) ∧ i.line = l))

example : closeScan ("DoThing(x));").data 0 1 .code 0 = some (10, 1) := by
  decide

example : closeScan ("// ) comment\n(a))").data 0 1 .code 0 = some (16, 2) := by
  decide

example : closeScan ("x = \x22)\x22; /* ) */ (y)").data 0 1 .code 0 = none := by
  decide

example :
    (openScan ("foo((bar)\n").data 0 1 .code []).head? = some (3, 1) := by
  decide

example : (openScan ("/* ( */ \x27(\x27 ok()").data 0 1 .code []).head? = none := by
  decide

example :
    ((check_defaultproperties (("defaultproperties\nHealth=100\n").data)
        ).head?.bind Issue.apply_fn).map
        (fun f => f (("defaultproperties\nHealth=100\n").data)) =
      some (("defaultproperties \x7b\n\x7d\n\nHealth=100\n").data) := by
  decide

example :
    ((check_semicolons_strict (("var int Count\n").data)).head?.bind
        Issue.apply_fn).map (fun f => f (("var int Count\n").data)) =
      some (("var int Count;\n").data) := by
  decide

example :
    ((extended_control_paren_balance
        (("if (x > 0\n  DoThing();\n").data)).head?.bind
        Issue.apply_fn).map
        (fun f => f (("if (x > 0\n  DoThing();\n").data)) =
      some (("if (x > 0)\n  DoThing();\n").data) := by
  decide

example :
    ((find_cpptext_missing_brace (("cpptext\nfoo();\n").data)).head?.bind
        Issue.apply_fn).map (fun f => f (("cpptext\nfoo();\n").data)) =
      some (("cpptext\n\x7b\nfoo();\n").data) := by
  decide

example :
    ((extended_struct_enum_closer
        (("struct Foo \x7b\nvar int x\n").data)).head?.bind
        Issue.apply_fn).map
        (fun f => f (("struct Foo \x7b\nvar int x\n").data)) =
      some (("struct Foo \x7b\x7d\n\nvar int x\n").data) := by
  decide

example : (scan_doc_for_issues (("\x7b\x7b").data) false).length = 1 := by
  decide

example :
    (scan_doc_for_issues (("\x7b\x7b").data) false).head?.map Issue.kind =
      some ("brace-balance") := by
  decide

/-! Basic facts about the line splitter. -/

theorem splitAux_join (cs : List Char) :
    ∀ acc, joinL (splitAux cs acc) = acc.reverse ++ cs := by
  induction cs with
  | nil =>
    intro acc
    by_cases h : acc.isEmpty
    · simp [splitAux, h, joinL]
      simp [List.isEmpty_iff] at h
      simp [h]
    · simp [splitAux, h, joinL]
  | cons c cs ih =>
    intro acc
    by_cases h : c = '\n'
    · simp [splitAux, h, joinL] at *
      simp [ih]
    · simp [splitAux, h, joinL] at *
      simpa using ih (c :: acc)

theorem joinL_splitlines (cs : List Char) : joinL (splitlinesKeep cs) = cs := by
  simpa using splitAux_join cs []

theorem splitlines_sum_lengths (cs : List Char) :
    ((splitlinesKeep cs).map List.length).sum = cs.length := by
  have h := congrArg List.length (joinL_splitlines cs)
  simpa [joinL] using h

/-! Facts about the deduplication loop. -/

theorem dedupGo_sublist (l : List Issue) :
    ∀ seen, (dedupGo seen l).Sublist l := by
  induction l with
  | nil => intro seen; simp [dedupGo]
  | cons a rest ih =>
    intro seen
    by_cases h : issueKey a ∈ seen
    · simpa [dedupGo, h] using (ih seen).cons a
    · simpa [dedupGo, h] using (ih (issueKey a :: seen)).cons₂ a

theorem dedupGo_not_seen (l : List Issue) :
    ∀ seen i, i ∈ dedupGo seen l → issueKey i ∉ seen := by
  induction l with
  | nil => intro seen i hi; simp [dedupGo] at hi
  | cons a rest ih =>
    intro seen i hi
    by_cases h : issueKey a ∈ seen
    · exact ih seen i (by simpa [dedupGo, h] using hi)
    · simp [dedupGo, h] at hi
      rcases hi with hi | hi
      · subst hi; exact h
      · intro hmem
        exact ih _ i hi (by simp [hmem])

theorem dedupGo_pairwise (l : List Issue) :
    ∀ seen, (dedupGo seen l).Pairwise
      (fun a b => issueKey a ≠ issueKey b) := by
  induction l with
  | nil => intro seen; simp [dedupGo]
  | cons a rest ih =>
    intro seen
    by_cases h : issueKey a ∈ seen
    · simpa [dedupGo, h] using ih seen
    · simp [dedupGo, h]
      refine ⟨?_, ih _⟩
      intro b hb hk
      have := dedupGo_not_seen rest _ b hb
      simp [← hk] at this

theorem dedupGo_covers (l : List Issue) :
    ∀ seen i, i ∈ l → issueKey i ∉ seen →
      ∃ j ∈ dedupGo seen l, issueKey j = issueKey i := by
  induction l with
  | nil => intro seen i hi; simp at hi
  | cons a rest ih =>
    intro seen i hi hs
    by_cases h : issueKey a ∈ seen
    · have hir : i ∈ rest := by
        rcases List.mem_cons.mp hi with rfl | hr
        · exact absurd h hs
        · exact hr
      simpa [dedupGo, h] using ih seen i hir hs
    · by_cases hk : issueKey i = issueKey a
      · exact ⟨a, by simp [dedupGo, h], hk.symm⟩
      · have hir : i ∈ rest := by
          rcases List.mem_cons.mp hi with rfl | hr
          · exact absurd rfl hk
          · exact hr
        obtain ⟨j, hj, hjk⟩ := ih (issueKey a :: seen) i hir (by simp [hk, hs])
        exact ⟨j, by simp [dedupGo, h, hj], hjk⟩

theorem dedupGo_first (l₁ : List Issue) :
    ∀ seen l i l₂, l = l₁ ++ i :: l₂ →
      (∀ j ∈ l₁, issueKey j ≠ issueKey i) → issueKey i ∉ seen →
      i ∈ dedupGo seen l := by
  induction l₁ with
  | nil =>
    intro seen l i l₂ hl _ hs
    subst hl
    simp [dedupGo, hs]
  | cons a l₁ ih =>
    intro seen l i l₂ hl hj hs
    subst hl
    by_cases h : issueKey a ∈ seen
    · simpa [dedupGo, h] using
        ih seen (l₁ ++ i :: l₂) i l₂ rfl (fun j hjm => hj j (by simp [hjm])) hs
    · have : i ∈ dedupGo (issueKey a :: seen) (l₁ ++ i :: l₂) :=
        ih _ (l₁ ++ i :: l₂) i l₂ rfl (fun j hjm => hj j (by simp [hjm]))
          (by
            simp [hs]
            exact fun hkk => (hj a (by simp)) hkk.symm)
      simp [dedupGo, h, this]

/-- C5: for every document and mode, the scan output is a sublist of the
    concatenated detector output, no two surviving entries share the
    (kind, line, message, span) key, every raw finding is represented,
    and a finding whose key is new at its position survives (so exact
    duplicates collapse to the first occurrence, in order). -/
theorem c5_scan_dedup (doc : List Char) (ext : Bool) :
    (scan_doc_for_issues doc ext).Sublist (rawIssues doc ext) ∧
    (scan_doc_for_issues doc ext).Pairwise
      (fun a b => issueKey a ≠ issueKey b) ∧
    (∀ i ∈ rawIssues doc ext, ∃ j ∈ scan_doc_for_issues doc ext,
      issueKey j = issueKey i) ∧
    (∀ l₁ i l₂, rawIssues doc ext = l₁ ++ i :: l₂ →
      (∀ j ∈ l₁, issueKey j ≠ issueKey i) →
      i ∈ scan_doc_for_issues doc ext) := by
  refine ⟨dedupGo_sublist _ _, dedupGo_pairwise _ _, ?_, ?_⟩
  · intro i hi
    exact dedupGo_covers _ [] i hi (by simp)
  · intro l₁ i l₂ hl hj
    exact dedupGo_first l₁ [] _ i l₂ hl hj (by simp)

/-- Witness for C5 at a concrete document: the brace issue raw finding
    survives deduplication. -/
theorem c5_scan_dedup_witness :
    ∃ i ∈ rawIssues (("\x7b\x7b").data) false,
      i ∈ scan_doc_for_issues (("\x7b\x7b").data) false := by
  obtain ⟨i, rest, h⟩ :
      ∃ i rest, rawIssues (("\x7b\x7b").data) false = i :: rest := by
    cases h : rawIssues (("\x7b\x7b").data) false with
    | nil =>
      have := congrArg List.length h
      exact absurd this (by decide)
    | cons a t => exact ⟨a, t, rfl⟩
  refine ⟨i, by simp [h], ?_⟩
  exact (c5_scan_dedup (("\x7b\x7b").data) false).2.2.2 [] i rest
    (by simpa using h) (by simp)

/-! Facts about whole-word search. -/

theorem kwAtStart_le (kw cs : List Char) (h : kwAtStart kw cs = true) :
    kw.length ≤ cs.length := by
  rw [kwAtStart, Bool.and_eq_true] at h
  have h1 := h.1
  rw [decide_eq_true_eq] at h1
  have : (lowerList (cs.take kw.length)).length = kw.length := by rw [h1]
  simpa [lowerList] using this

theorem findWordAuxF_mem (kw : List Char) (hkw : kw ≠ []) :
    ∀ fuel cs p0 w q, q ∈ findWordAuxF kw fuel cs p0 w →
      ∃ k, q = p0 + k ∧ kwAtStart kw (cs.drop k) = true := by
  intro fuel
  induction fuel with
  | zero => intro cs p0 w q hq; simp [findWordAuxF] at hq
  | succ n ih =>
    intro cs p0 w q hq
    cases cs with
    | nil => simp [findWordAuxF] at hq
    | cons c cs' =>
      by_cases hm : (!w && kwAtStart kw (c :: cs')) = true
      · rw [findWordAuxF, if_pos hm] at hq
        rcases List.mem_cons.mp hq with rfl | hq'
        · exact ⟨0, by simp, (Bool.and_eq_true _ _ |>.mp hm).2⟩
        · obtain ⟨k, hk, hkw2⟩ := ih _ _ _ _ hq'
          refine ⟨kw.length + k, by omega, ?_⟩
          have hpos : 0 < kw.length := List.length_pos.mpr hkw
          have harith : kw.length + k = ((kw.length - 1) + k) + 1 := by
            omega
          rw [harith, List.drop_succ_cons, ← List.drop_drop]
          exact hkw2
      · rw [findWordAuxF, if_neg hm] at hq
        obtain ⟨k, hk, hkw2⟩ := ih _ _ _ _ hq
        refine ⟨1 + k, by omega, ?_⟩
        have harith : (1 : Nat) + k = k + 1 := by omega
        rw [harith, List.drop_succ_cons]
        exact hkw2

theorem findWordAll_mem (kw : List Char) (hkw : kw ≠ []) (doc : List Char)
    (q : Nat) (hq : q ∈ findWordAll kw doc) :
    kwAtStart kw (doc.drop q) = true ∧ q + kw.length ≤ doc.length := by
  obtain ⟨k, hk, hkw2⟩ := findWordAuxF_mem kw hkw _ _ _ _ q hq
  have hqk : q = k := by omega
  subst hqk
  refine ⟨hkw2, ?_⟩
  have h1 := kwAtStart_le kw _ hkw2
  have h2 : (doc.drop q).length = doc.length - q := by simp
  by_cases hql : q ≤ doc.length
  · omega
  · rw [kwAtStart, Bool.and_eq_true] at hkw2
    have h3 := hkw2.1
    rw [decide_eq_true_eq] at h3
    have h4 : doc.drop q = [] := List.drop_eq_nil_of_le (by omega)
    rw [h4] at h3
    simp [lowerList] at h3
    exact absurd h3 hkw

/-- C1 (amended): every defaultprops issue is anchored at a whole-word
    keyword occurrence whose following text lacks the open brace, and
    its repair edits at the byte offset captured at detection time (the
    end of that occurrence in the scanned document), whatever text it is
    later given; it does not re-locate the keyword in that text. -/
theorem c1_dp_captured_offset (doc : List Char) :
    ∀ i ∈ check_defaultproperties doc, ∃ p,
      kwAtStart dpWord (doc.drop p) = true ∧
      p + dpWord.length ≤ doc.length ∧
      ((doc.drop (p + dpWord.length)).dropWhile pySpace).head? ≠
        some lbrace ∧
      i.line = (doc.take p).count '\n' + 1 ∧
      ∃ f, i.apply_fn = some f ∧ ∀ t,
        f t = t.take (p + dpWord.length) ++ (" \x7b\n\x7d\n").data ++
          t.drop (p + dpWord.length) := by
  intro i hi
  rw [check_defaultproperties] at hi
  obtain ⟨p, hp, hg⟩ := List.mem_filterMap.mp hi
  by_cases hb :
      ((doc.drop (p + dpWord.length)).dropWhile pySpace).head? = some lbrace
  · simp [hb] at hg
  · have hg2 : some (Issue.mk "defaultprops-brace"
        (dpMsg ((doc.take p).count '\n' + 1)) ((doc.take p).count '\n' + 1)
        (p - 5, min doc.length (p + dpWord.length + 5)) none
        (some (dpApply (p + dpWord.length)))) = some i := by
      rw [← hg]
      simp [hb]
    have hg3 := Option.some.inj hg2
    obtain ⟨hw, hlen⟩ := findWordAll_mem dpWord (by decide) doc p hp
    refine ⟨p, hw, hlen, hb, ?_, dpApply (p + dpWord.length), ?_, ?_⟩
    · rw [← hg3]
    · rw [← hg3]
    · intro t
      rfl

/-- C1 counterexample: the repair produced for the bare keyword document
    edits the text it is given at the stale captured offset, splitting
    the keyword when the text has shifted by two characters, instead of
    recomputing the keyword position from that text. -/
theorem c1_dp_cex :
    ((check_defaultproperties (("defaultproperties").data)).head?.bind
        Issue.apply_fn).map
        (fun f => f (("x defaultproperties").data)) =
      some (("x defaultproperti \x7b\n\x7d\nes").data) ∧
    ((check_defaultproperties (("defaultproperties").data)).head?.bind
        Issue.apply_fn).map
        (fun f => f (("x defaultproperties").data)) ≠
      some (("x defaultproperties \x7b\n\x7d\n").data) := by
  constructor
  · decide
  · decide

/-- C4 counterexample: on the spec scenario document the repair does not
    yield the text the claim states; the original newline after the
    keyword survives the insertion, leaving a blank line. -/
theorem c4_scenario_cex :
    ((scan_doc_for_issues (("defaultproperties\nHealth=100\n").data)
        false).head?.bind Issue.apply_fn).map
        (fun f => f (("defaultproperties\nHealth=100\n").data)) ≠
      some (("defaultproperties \x7b\n\x7d\nHealth=100\n").data) := by
  decide

/-- C4 (amended): scanning the scenario document yields the
    defaultprops issue at line 1 first, and its repair produces the text
    with the empty block inserted directly after the keyword, followed
    by the original newline. -/
theorem c4_scenario_amended :
    (scan_doc_for_issues (("defaultproperties\nHealth=100\n").data)
        false).head?.map Issue.kind = some ("defaultprops-brace") ∧
    (scan_doc_for_issues (("defaultproperties\nHealth=100\n").data)
        false).head?.map Issue.line = some 1 ∧
    ((scan_doc_for_issues (("defaultproperties\nHealth=100\n").data)
        false).head?.bind Issue.apply_fn).map
        (fun f => f (("defaultproperties\nHealth=100\n").data)) =
      some (("defaultproperties \x7b\n\x7d\n\nHealth=100\n").data) := by
  refine ⟨by decide, by decide, by decide⟩

/-! Self-guarding of the semicolon repair. -/

theorem semiGo_apply_fn :
    ∀ ls n offs, ∀ i ∈ semiGo ls n offs,
      i.apply_fn = some (semiApply i.line) := by
  intro ls
  induction ls with
  | nil => intro n offs i hi; simp [semiGo] at hi
  | cons line rest ih =>
    intro n offs i hi
    rw [semiGo] at hi
    by_cases h1 : ((pyStrip line).isEmpty ||
        (pyStrip line).take 2 = ['/', '/'] ||
        (pyStrip line).getLast? = some lbrace ||
        (pyStrip line).getLast? = some rbrace ||
        (pyStrip line).take 2 = ['/', '*']) = true
    · rw [if_pos h1] at hi
      exact ih _ _ i hi
    · rw [if_neg h1] at hi
      by_cases h2 : ((varDeclMatch (pyStrip line) ||
          assignMatch (pyStrip line)) &&
          !((pyStrip line).getLast? = some ';')) = true
      · rw [if_pos h2] at hi
        rcases List.mem_cons.mp hi with rfl | hi'
        · rfl
        · exact ih _ _ i hi'
      · rw [if_neg h2] at hi
        exact ih _ _ i hi

theorem semiApply_selfguard (anchor : Nat) (t : List Char)
    (h : ∀ ln, (splitlinesKeep t)[anchor - 1]? = some ln →
      (dropTrailing pySpace ln).getLast? = some ';') :
    semiApply anchor t = t := by
  rw [semiApply]
  cases hd : (splitlinesKeep t)[anchor - 1]? with
  | none => simp [hd, joinL_splitlines]
  | some ln => simp [hd, h ln hd]

/-- C2 (amended): the semicolon repair is self-guarding: given any
    text whose target line (when it exists at all) already ends in a
    semicolon after stripping trailing whitespace, it returns the text
    unchanged.  The brace-inserting repairs carry no such guard. -/
theorem c2_semicolon_selfguard (doc : List Char) :
    ∀ i ∈ check_semicolons_strict doc, ∃ f, i.apply_fn = some f ∧
      ∀ t, (∀ ln, (splitlinesKeep t)[i.line - 1]? = some ln →
        (dropTrailing pySpace ln).getLast? = some ';') → f t = t :=
  fun i hi =>
    ⟨semiApply i.line, semiGo_apply_fn _ _ _ i hi,
      fun t ht => semiApply_selfguard i.line t ht⟩

/-- Witness for C2 at a concrete document and already-repaired text. -/
theorem c2_semicolon_selfguard_witness :
    ∃ i ∈ check_semicolons_strict (("x=1\n").data),
      ∃ f, i.apply_fn = some f ∧ f (("x=1;\n").data) = (("x=1;\n").data) := by
  obtain ⟨a, rest, h⟩ :
      ∃ a rest, check_semicolons_strict (("x=1\n").data) = a :: rest := by
    cases h : check_semicolons_strict (("x=1\n").data) with
    | nil => exact absurd (congrArg List.length h) (by decide)
    | cons a t => exact ⟨a, t, rfl⟩
  have hmem : a ∈ check_semicolons_strict (("x=1\n").data) := by simp [h]
  obtain ⟨f, hf, hg⟩ := c2_semicolon_selfguard _ a hmem
  have hl : a.line = 1 := by
    have h3 : (check_semicolons_strict (("x=1\n").data)).head?.map
        Issue.line = some 1 := by decide
    rw [h] at h3
    simpa using h3
  refine ⟨a, hmem, f, hf, hg _ ?_⟩
  intro ln hln
  rw [hl] at hln
  have hz : (splitlinesKeep (("x=1;\n").data))[(0 : Nat)]? =
      some (("x=1;\n").data) := by decide
  rw [hz] at hln
  cases hln
  decide

/-- C2 counterexample: the brace-balance repair produced on an
    unbalanced document, applied to a text whose braces are already
    balanced, still inserts a close brace instead of returning its
    input unchanged. -/
theorem c2_braces_cex :
    ((safe_close_balance (("\x7b\x7b").data)).head?.bind
        Issue.apply_fn).map (fun f => f (("\x7b\n\x7d\n").data)) =
      some (("\x7b\n\x7d\n\x7d\n").data) ∧
    ¬ (("\x7b\n\x7d\n\x7d\n").data = (("\x7b\n\x7d\n").data)) := by
  exact ⟨by decide, by decide⟩

theorem topLevelFrom_nil : topLevelFrom [] = false := by decide

theorem tlMatchAt_lt (t : List Char) (p : Nat) (h : tlMatchAt t p) :
    p < t.length := by
  by_contra hp
  have hd : t.drop p = [] := List.drop_eq_nil_of_le (by omega)
  have := h.2
  rw [hd, topLevelFrom_nil] at this
  exact absurd this (by simp)

theorem tlAux_spec (t : List Char) :
    ∀ cs p ls, cs = t.drop p →
      (ls = true ↔ (p = 0 ∨ ∃ u, t.drop (p - 1) = '\n' :: u)) →
      (∀ q, tlAux cs p ls = some q →
        tlMatchAt t q ∧ p ≤ q ∧ ∀ r, p ≤ r → r < q → ¬ tlMatchAt t r) ∧
      (tlAux cs p ls = none → ∀ r, p ≤ r → ¬ tlMatchAt t r) := by
  intro cs
  induction cs with
  | nil =>
    intro p ls hcs hls
    constructor
    · intro q hq; simp [tlAux] at hq
    · intro _ r hr hm
      have hlen : t.length ≤ p := by
        have := congrArg List.length hcs
        simp at this
        omega
      exact absurd (tlMatchAt_lt t r hm) (by omega)
  | cons c cs' ih =>
    intro p ls hcs hls
    have hdrop1 : t.drop (p + 1) = cs' := by
      rw [← List.tail_drop, ← hcs]
      rfl
    have hls' : ((c = '\n') : Bool) = true ↔
        (p + 1 = 0 ∨ ∃ u, t.drop (p + 1 - 1) = '\n' :: u) := by
      constructor
      · intro hc
        rw [decide_eq_true_eq] at hc
        exact Or.inr ⟨cs', by rw [Nat.add_sub_cancel, ← hcs, hc]⟩
      · rintro (h0 | ⟨u, hu⟩)
        · omega
        · rw [Nat.add_sub_cancel, ← hcs] at hu
          simp [List.cons.injEq] at hu
          simp [hu.1]
    by_cases hm : (ls && topLevelFrom (c :: cs')) = true
    · rw [Bool.and_eq_true] at hm
      constructor
      · intro q hq
        rw [tlAux, if_pos (by rw [Bool.and_eq_true]; exact hm)] at hq
        have hq2 := Option.some.inj hq
        subst hq2
        refine ⟨⟨hls.mp hm.1, by rw [← hcs]; exact hm.2⟩, le_refl _, ?_⟩
        intro r hr1 hr2 _
        omega
      · intro hq
        rw [tlAux, if_pos (by rw [Bool.and_eq_true]; exact hm)] at hq
        exact absurd hq (by simp)
    · have hstep : tlAux (c :: cs') p ls = tlAux cs' (p + 1) (c = '\n') := by
        rw [tlAux, if_neg hm]
      have hnotp : ¬ tlMatchAt t p := by
        intro hmp
        apply hm
        rw [Bool.and_eq_true]
        refine ⟨hls.mpr hmp.1, ?_⟩
        rw [hcs]
        exact hmp.2
      obtain ⟨ihs, ihn⟩ := ih (p + 1) (c = '\n') hdrop1.symm hls'
      constructor
      · intro q hq
        rw [hstep] at hq
        obtain ⟨hm1, hm2, hm3⟩ := ihs q hq
        refine ⟨hm1, by omega, ?_⟩
        intro r hr1 hr2
        by_cases hrp : r = p
        · subst hrp; exact hnotp
        · exact hm3 r (by omega) hr2
      · intro hq r hr
        rw [hstep] at hq
        by_cases hrp : r = p
        · subst hrp; exact hnotp
        · exact ihn hq r (by omega)

theorem topLevelSearch_some (t : List Char) (q : Nat)
    (h : topLevelSearch t = some q) :
    tlMatchAt t q ∧ ∀ r < q, ¬ tlMatchAt t r := by
  obtain ⟨hs, _⟩ := tlAux_spec t t 0 true (by simp) (by simp)
  obtain ⟨h1, _, h3⟩ := hs q h
  exact ⟨h1, fun r hr => h3 r (by omega) hr⟩

theorem topLevelSearch_none (t : List Char) (h : topLevelSearch t = none) :
    ∀ r, ¬ tlMatchAt t r := by
  obtain ⟨_, hn⟩ := tlAux_spec t t 0 true (by simp) (by simp)
  exact fun r => hn h r (by omega)

/-! Brace counting facts. -/

theorem braceDelta_counts (doc : List Char) :
    braceDelta doc = (doc.count lbrace : Int) - (doc.count rbrace : Int) := by
  induction doc with
  | nil => simp [braceDelta]
  | cons c cs ih =>
    have hstep : braceDelta (c :: cs) =
        (if c = lbrace then (1 : Int) else if c = rbrace then -1 else 0) +
          braceDelta cs := by
      simp [braceDelta]
    have hne1 : ¬ lbrace = rbrace := by decide
    have hne2 : ¬ rbrace = lbrace := by decide
    by_cases h1 : c = lbrace
    · have h2 : ¬ c = rbrace := by rw [h1]; decide
      rw [hstep, ih]
      simp [List.count_cons, h1, h2, hne1, hne2]
      ring
    · by_cases h2 : c = rbrace
      · rw [hstep, ih]
        simp [List.count_cons, h1, h2, Ne.symm h1, hne1, hne2]
        ring
      · rw [hstep, ih]
        simp [List.count_cons, h1, h2, Ne.symm h1, Ne.symm h2]

theorem safeCloseApply_counts (t : List Char) :
    (safeCloseApply t).count rbrace = t.count rbrace + 1 ∧
    (safeCloseApply t).count lbrace = t.count lbrace := by
  rw [safeCloseApply]
  constructor
  · rw [List.count_append, List.count_append]
    conv_rhs => rw [← List.take_append_drop ((topLevelSearch t).getD
      t.length) t, List.count_append]
    have : ([rbrace, '\n']).count rbrace = 1 := by decide
    rw [this]
    omega
  · rw [List.count_append, List.count_append]
    conv_rhs => rw [← List.take_append_drop ((topLevelSearch t).getD
      t.length) t, List.count_append]
    have : ([rbrace, '\n']).count lbrace = 0 := by decide
    rw [this]
    omega

/-- C3: the brace-balance detector counts braces over the raw document.
    More closers than openers yields exactly one unrepaired issue; more
    openers than closers yields exactly one issue whose repair inserts a
    single close brace at the first position of the given text where the
    multiline top-level pattern matches, or at its end when it matches
    nowhere; equal counts yield no issue. -/
theorem c3_brace_balance (doc : List Char) :
    (doc.count lbrace < doc.count rbrace →
      ∃ i, safe_close_balance doc = [i] ∧ i.kind = "brace-balance" ∧
        i.line = 1 ∧ i.apply_fn = none) ∧
    (doc.count rbrace < doc.count lbrace →
      ∃ i, safe_close_balance doc = [i] ∧ i.kind = "brace-balance" ∧
        i.line = 1 ∧ ∃ f, i.apply_fn = some f ∧ ∀ t, ∃ p,
          ((tlMatchAt t p ∧ ∀ r < p, ¬ tlMatchAt t r) ∨
            ((∀ r, ¬ tlMatchAt t r) ∧ p = t.length)) ∧
          f t = t.take p ++ [rbrace, '\n'] ++ t.drop p ∧
          (f t).count rbrace = t.count rbrace + 1 ∧
          (f t).count lbrace = t.count lbrace) ∧
    (doc.count lbrace = doc.count rbrace → safe_close_balance doc = []) := by
  have hd := braceDelta_counts doc
  refine ⟨?_, ?_, ?_⟩
  · intro h
    have hneg : braceDelta doc < 0 := by omega
    rw [safe_close_balance, if_pos hneg]
    exact ⟨_, rfl, rfl, rfl, rfl⟩
  · intro h
    have hneg : ¬ braceDelta doc < 0 := by omega
    have hpos : 0 < braceDelta doc := by omega
    rw [safe_close_balance, if_neg hneg, if_pos hpos]
    refine ⟨_, rfl, rfl, rfl, safeCloseApply, rfl, ?_⟩
    intro t
    refine ⟨(topLevelSearch t).getD t.length, ?_, rfl,
      (safeCloseApply_counts t).1, (safeCloseApply_counts t).2⟩
    cases hs : topLevelSearch t with
    | some q =>
      simp only [hs, Option.getD_some]
      exact Or.inl (topLevelSearch_some t q hs)
    | none =>
      simp only [hs, Option.getD_none]
      exact Or.inr ⟨topLevelSearch_none t hs, by trivial⟩
  · intro h
    have h1 : ¬ braceDelta doc < 0 := by omega
    have h2 : ¬ 0 < braceDelta doc := by omega
    rw [safe_close_balance, if_neg h1, if_neg h2]

/-- Witness for C3 at concrete documents covering all three cases. -/
theorem c3_brace_balance_witness :
    (∃ i, safe_close_balance (("\x7d").data) = [i] ∧ i.apply_fn = none) ∧
    safe_close_balance (("ok").data) = [] ∧
    (∃ i, safe_close_balance (("\x7b").data) = [i] ∧
      ¬ i.apply_fn = none) := by
  refine ⟨?_, (c3_brace_balance (("ok").data)).2.2 (by decide), ?_⟩
  · obtain ⟨i, h1, _, _, h4⟩ :=
      (c3_brace_balance (("\x7d").data)).1 (by decide)
    exact ⟨i, h1, h4⟩
  · obtain ⟨i, h1, _, _, f, hf, _⟩ :=
      (c3_brace_balance (("\x7b").data)).2.1 (by decide)
    exact ⟨i, h1, by simp [hf]⟩

/-! Which detector owns which kind tag. -/

theorem cpptextGo_kind :
    ∀ ls n o, ∀ i ∈ cpptextGo ls n o, i.kind = "cpptext-brace" := by
  intro ls
  induction ls with
  | nil => intro n o i hi; simp [cpptextGo] at hi
  | cons line rest ih =>
    intro n o i hi
    rw [cpptextGo] at hi
    by_cases h1 : hasWord (("cpptext").data) line = true
    · rw [if_pos h1] at hi
      by_cases h2 : lbrace ∈ line
      · rw [if_pos h2] at hi
        exact ih _ _ i hi
      · rw [if_neg h2] at hi
        by_cases h3 : (!startsOpenBrace
            ((rest.dropWhile blankOrComment).headD [])) = true
        · rw [if_pos h3] at hi
          rcases List.mem_cons.mp hi with rfl | hi'
          · rfl
          · exact ih _ _ i hi'
        · rw [if_neg h3] at hi
          exact ih _ _ i hi
    · rw [if_neg h1] at hi
      exact ih _ _ i hi

theorem check_defaultproperties_kind (doc : List Char) :
    ∀ i ∈ check_defaultproperties doc, i.kind = "defaultprops-brace" := by
  intro i hi
  rw [check_defaultproperties] at hi
  obtain ⟨p, _, hg⟩ := List.mem_filterMap.mp hi
  by_cases hb :
      ((doc.drop (p + dpWord.length)).dropWhile pySpace).head? = some lbrace
  · simp [hb] at hg
  · have hg2 : some (Issue.mk "defaultprops-brace"
        (dpMsg ((doc.take p).count '\n' + 1)) ((doc.take p).count '\n' + 1)
        (p - 5, min doc.length (p + dpWord.length + 5)) none
        (some (dpApply (p + dpWord.length)))) = some i := by
      rw [← hg]
      simp [hb]
    rw [← Option.some.inj hg2]

theorem semiGo_kind :
    ∀ ls n o, ∀ i ∈ semiGo ls n o, i.kind = "semicolon-missing" := by
  intro ls
  induction ls with
  | nil => intro n o i hi; simp [semiGo] at hi
  | cons line rest ih =>
    intro n o i hi
    rw [semiGo] at hi
    by_cases h1 : ((pyStrip line).isEmpty ||
        (pyStrip line).take 2 = ['/', '/'] ||
        (pyStrip line).getLast? = some lbrace ||
        (pyStrip line).getLast? = some rbrace ||
        (pyStrip line).take 2 = ['/', '*']) = true
    · rw [if_pos h1] at hi
      exact ih _ _ i hi
    · rw [if_neg h1] at hi
      by_cases h2 : ((varDeclMatch (pyStrip line) ||
          assignMatch (pyStrip line)) &&
          !((pyStrip line).getLast? = some ';')) = true
      · rw [if_pos h2] at hi
        rcases List.mem_cons.mp hi with rfl | hi'
        · rfl
        · exact ih _ _ i hi'
      · rw [if_neg h2] at hi
        exact ih _ _ i hi

theorem ctrlGo_kind :
    ∀ ls n o, ∀ i ∈ ctrlGo ls n o, i.kind = "paren-control-close" := by
  intro ls
  induction ls with
  | nil => intro n o i hi; simp [ctrlGo] at hi
  | cons line rest ih =>
    intro n o i hi
    rw [ctrlGo] at hi
    by_cases h1 : (isCtrlLine line &&
        line.count '(' = line.count ')' + 1) = true
    · rw [if_pos h1] at hi
      rcases List.mem_cons.mp hi with rfl | hi'
      · rfl
      · exact ih _ _ i hi'
    · rw [if_neg h1] at hi
      exact ih _ _ i hi

theorem struct_enum_kind (doc : List Char) :
    ∀ i ∈ extended_struct_enum_closer doc, i.kind = "struct-enum-close" := by
  intro i hi
  rw [extended_struct_enum_closer] at hi
  obtain ⟨m, _, hg⟩ := List.mem_filterMap.mp hi
  by_cases hw : (braceWalk (doc.drop m.2.1) m.2.1 1 m.2.1).2 = 0
  · simp [hw] at hg
  · have hg2 : some (Issue.mk "struct-enum-close"
        (seMsg m.2.2 ((doc.take m.1).count '\n' + 1))
        ((doc.take m.1).count '\n' + 1) (m.1, m.2.1) none
        (some (seApply
          (match topLevelSearch (doc.drop
              (braceWalk (doc.drop m.2.1) m.2.1 1 m.2.1).1) with
            | some k => (braceWalk (doc.drop m.2.1) m.2.1 1 m.2.1).1 + k
            | none => doc.length)))) = some i := by
      rw [← hg]
      simp [hw]
    rw [← Option.some.inj hg2]

theorem close_paren_kind (doc : List Char) :
    ∀ i ∈ extended_unmatched_close_paren doc,
      i.kind = "paren-extra-close" := by
  intro i hi
  rw [extended_unmatched_close_paren] at hi
  cases hs : closeScan doc 0 1 .code 0 with
  | none => rw [hs] at hi; simp at hi
  | some r =>
    rw [hs] at hi
    rcases List.mem_cons.mp hi with rfl | hi'
    · rfl
    · simp at hi'

theorem open_paren_kind (doc : List Char) :
    ∀ i ∈ extended_unmatched_open_paren doc,
      i.kind = "paren-extra-open" := by
  intro i hi
  rw [extended_unmatched_open_paren] at hi
  cases hs : (openScan doc 0 1 .code []).head? with
  | none => rw [hs] at hi; simp at hi
  | some r =>
    rw [hs] at hi
    rcases List.mem_cons.mp hi with rfl | hi'
    · rfl
    · simp at hi'

/-- Every raw finding whose kind is the brace-balance tag comes from the
    brace-balance detector. -/
theorem rawIssues_brace_kind (doc : List Char) (ext : Bool) :
    ∀ j ∈ rawIssues doc ext, j.kind = "brace-balance" →
      j ∈ safe_close_balance doc := by
  intro j hj hk
  rw [rawIssues] at hj
  simp only [List.mem_append] at hj
  rcases hj with ((((h | h) | h) | h) | h) | h
  · have := cpptextGo_kind _ _ _ j h
    rw [this] at hk
    exact absurd hk (by decide)
  · exact h
  · have := check_defaultproperties_kind doc j h
    rw [this] at hk
    exact absurd hk (by decide)
  · have := semiGo_kind _ _ _ j h
    rw [this] at hk
    exact absurd hk (by decide)
  · by_cases hp : doc.count '(' = doc.count ')'
    · rw [if_pos hp] at h
      simp at h
    · rw [if_neg hp] at h
      rcases List.mem_cons.mp h with rfl | h'
      · simp at hk
      · simp at h'
  · cases ext with
    | false => simp at h
    | true =>
      simp only [if_pos, List.mem_append] at h
      rcases h with (h | h) | h
      · have := ctrlGo_kind _ _ _ j h
        rw [this] at hk
        exact absurd hk (by decide)
      · have := struct_enum_kind doc j h
        rw [this] at hk
        exact absurd hk (by decide)
      · have := close_paren_kind doc j h
        rw [this] at hk
        exact absurd hk (by decide)

/-- C9 counterexample: on a document whose brace surplus is two, the
    brace-balance repair is applied and the re-scan reports the very
    same (kind, line) pair again. -/
theorem c9_rescan_cex :
    ((scan_doc_for_issues (("\x7b\x7b").data) false).head?.map Issue.kind =
      some ("brace-balance")) ∧
    ((scan_doc_for_issues (("\x7b\x7b").data) false).head?.map Issue.line =
      some 1) ∧
    ((scan_doc_for_issues (("\x7b\x7b").data) false).head?.bind
        Issue.apply_fn).map (fun f =>
          (scan_doc_for_issues (f (("\x7b\x7b").data)) false).head?.map
            (fun j => (j.kind, j.line))) =
      some (some ("brace-balance", 1)) := by
  exact ⟨by decide, by decide, by decide⟩

/-- C9 (amended): the brace-balance repair converges when the brace
    surplus is exactly one: after applying it, a re-scan under any mode
    reports no brace-balance issue at all.  For a larger surplus the
    repair inserts only one brace and the same (kind, line) pair is
    re-reported, so repeated scan-and-fix rounds are needed. -/
theorem c9_brace_repair_converges (doc : List Char) (ext : Bool)
    (h : doc.count lbrace = doc.count rbrace + 1) :
    ∃ i f, safe_close_balance doc = [i] ∧ i.apply_fn = some f ∧
      ∀ j ∈ scan_doc_for_issues (f doc) ext,
        ¬ j.kind = "brace-balance" := by
  have hd := braceDelta_counts doc
  have hneg : ¬ braceDelta doc < 0 := by omega
  have hpos : 0 < braceDelta doc := by omega
  refine ⟨_, safeCloseApply,
    by rw [safe_close_balance, if_neg hneg, if_pos hpos], rfl, ?_⟩
  intro j hj hk
  have hj2 : j ∈ rawIssues (safeCloseApply doc) ext :=
    (dedupGo_sublist _ _).subset hj
  have hc := safeCloseApply_counts doc
  have hbal : braceDelta (safeCloseApply doc) = 0 := by
    rw [braceDelta_counts, hc.1, hc.2]
    push_cast
    omega
  have hscb : safe_close_balance (safeCloseApply doc) = [] := by
    rw [safe_close_balance, if_neg (by omega), if_neg (by omega)]
  have := rawIssues_brace_kind _ ext j hj2 hk
  rw [hscb] at this
  simp at this

/-- Witness for C9 at a concrete one-surplus document. -/
theorem c9_brace_repair_converges_witness :
    ∃ i f, safe_close_balance (("\x7b x\n").data) = [i] ∧
      i.apply_fn = some f ∧
      ∀ j ∈ scan_doc_for_issues (f (("\x7b x\n").data)) false,
        ¬ j.kind = "brace-balance" :=
  c9_brace_repair_converges (("\x7b x\n").data) false (by decide)

/-! Invariants of the two paren scanners. -/

theorem closeScan_found :
    ∀ cs p l m d q ln, closeScan cs p l m d = some (q, ln) →
      p ≤ q ∧ q < p + cs.length ∧ cs[q - p]? = some ')' ∧ l ≤ ln := by
  intro cs
  induction cs with
  | nil => intro p l m d q ln h; simp [closeScan] at h
  | cons c cs' ih =>
    intro p l m d q ln h
    rw [closeScan] at h
    by_cases h1 : (isCodeCtx m && c = ')') = true
    · rw [if_pos h1] at h
      by_cases h2 : d = 0
      · rw [if_pos h2] at h
        obtain ⟨hq, hl⟩ := Prod.mk.injEq _ _ _ _ ▸ Option.some.inj h
        subst hq
        have hc : c = ')' := by
          rw [Bool.and_eq_true, decide_eq_true_eq] at h1
          exact h1.2
        refine ⟨le_refl _, by simp, ?_, by omega⟩
        simp [hc]
      · rw [if_neg h2] at h
        obtain ⟨hp, hb, hg, hl⟩ := ih _ _ _ _ _ _ h
        refine ⟨by omega, by simp; omega, ?_, hl⟩
        have harith : q - p = (q - (p + 1)) + 1 := by omega
        rw [harith]
        simpa using hg
    · rw [if_neg h1] at h
      by_cases h2 : (isCodeCtx m && c = '(') = true
      · rw [if_pos h2] at h
        obtain ⟨hp, hb, hg, hl⟩ := ih _ _ _ _ _ _ h
        refine ⟨by omega, by simp; omega, ?_, hl⟩
        have harith : q - p = (q - (p + 1)) + 1 := by omega
        rw [harith]
        simpa using hg
      · rw [if_neg h2] at h
        obtain ⟨hp, hb, hg, hl⟩ := ih _ _ _ _ _ _ h
        refine ⟨by omega, by simp; omega, ?_, ?_⟩
        · have harith : q - p = (q - (p + 1)) + 1 := by omega
          rw [harith]
          simpa using hg
        · by_cases hinc : lexLineInc m c = true
          · rw [if_pos hinc] at hl
            omega
          · rw [if_neg hinc] at hl
            omega

theorem closeScan_append_some :
    ∀ a b p l m d r, closeScan a p l m d = some r →
      closeScan (a ++ b) p l m d = some r := by
  intro a
  induction a with
  | nil => intro b p l m d r h; simp [closeScan] at h
  | cons c cs ih =>
    intro b p l m d r h
    rw [closeScan] at h
    rw [List.cons_append, closeScan]
    by_cases h1 : (isCodeCtx m && c = ')') = true
    · rw [if_pos h1] at h ⊢
      by_cases h2 : d = 0
      · rw [if_pos h2] at h ⊢
        exact h
      · rw [if_neg h2] at h ⊢
        exact ih _ _ _ _ _ _ h
    · rw [if_neg h1] at h ⊢
      by_cases h2 : (isCodeCtx m && c = '(') = true
      · rw [if_pos h2] at h ⊢
        exact ih _ _ _ _ _ _ h
      · rw [if_neg h2] at h ⊢
        exact ih _ _ _ _ _ _ h

theorem closeScan_append_none :
    ∀ a b p l m d, closeScan a p l m d = none →
      closeScan (a ++ b) p l m d =
        closeScan b (p + a.length) (closeAfter a (m, l, d)).2.1
          (closeAfter a (m, l, d)).1 (closeAfter a (m, l, d)).2.2 := by
  intro a
  induction a with
  | nil => intro b p l m d _; simp [closeAfter]
  | cons c cs ih =>
    intro b p l m d h
    rw [closeScan] at h
    have harith : p + 1 + cs.length = p + (c :: cs).length := by
      simp
      omega
    by_cases h1 : (isCodeCtx m && c = ')') = true
    · by_cases h2 : d = 0
      · rw [if_pos h1, if_pos h2] at h
        exact absurd h (by simp)
      · rw [if_pos h1, if_neg h2] at h
        have hca : closeAfter (c :: cs) (m, l, d) =
            closeAfter cs (lexAdvance m c, l, d - 1) := by
          rw [closeAfter]
          simp only [h1, if_pos]
        have hcs : closeScan ((c :: cs) ++ b) p l m d =
            closeScan (cs ++ b) (p + 1) l (lexAdvance m c) (d - 1) := by
          rw [List.cons_append, closeScan]
          simp only [h1, if_pos, if_neg h2]
        rw [hcs, ih b (p + 1) l (lexAdvance m c) (d - 1) h, hca, harith]
    · by_cases h2 : (isCodeCtx m && c = '(') = true
      · rw [if_neg h1, if_pos h2] at h
        have hca : closeAfter (c :: cs) (m, l, d) =
            closeAfter cs (lexAdvance m c, l, d + 1) := by
          rw [closeAfter]
          simp only [h1, h2, if_pos, if_neg, Bool.false_eq_true,
            not_false_eq_true]
        have hcs : closeScan ((c :: cs) ++ b) p l m d =
            closeScan (cs ++ b) (p + 1) l (lexAdvance m c) (d + 1) := by
          rw [List.cons_append, closeScan]
          simp only [h1, h2, if_pos, if_neg, Bool.false_eq_true,
            not_false_eq_true]
        rw [hcs, ih b (p + 1) l (lexAdvance m c) (d + 1) h, hca, harith]
      · rw [if_neg h1, if_neg h2] at h
        have hca : closeAfter (c :: cs) (m, l, d) =
            closeAfter cs (lexAdvance m c,
              (if lexLineInc m c then l + 1 else l), d) := by
          rw [closeAfter]
          simp only [h1, h2, if_neg, Bool.false_eq_true, not_false_eq_true]
        have hcs : closeScan ((c :: cs) ++ b) p l m d =
            closeScan (cs ++ b) (p + 1)
              (if lexLineInc m c then l + 1 else l) (lexAdvance m c) d := by
          rw [List.cons_append, closeScan]
          simp only [h1, h2, if_neg, Bool.false_eq_true, not_false_eq_true]
        rw [hcs, ih b (p + 1) (if lexLineInc m c then l + 1 else l)
          (lexAdvance m c) d h, hca, harith]

theorem closeScan_take_none (doc : List Char) (q ln : Nat)
    (h : closeScan doc 0 1 .code 0 = some (q, ln)) :
    closeScan (doc.take q) 0 1 .code 0 = none := by
  cases hs : closeScan (doc.take q) 0 1 .code 0 with
  | none => rfl
  | some r =>
    have h2 := closeScan_append_some (doc.take q) (doc.drop q) 0 1 .code 0
      r hs
    rw [List.take_append_drop] at h2
    rw [h] at h2
    have h3 := Option.some.inj h2
    obtain ⟨hp, hb, _, _⟩ := closeScan_found _ _ _ _ _ r.1 r.2 hs
    have hlen : (doc.take q).length ≤ q := by simp
    have hq : r.1 = q := by rw [← h3]
    exfalso
    simp at hb
    omega

theorem openScan_entries :
    ∀ cs p l m st e, e ∈ openScan cs p l m st →
      e ∈ st ∨ (p ≤ e.1 ∧ e.1 < p + cs.length ∧
        cs[e.1 - p]? = some '(' ∧ l ≤ e.2) := by
  intro cs
  induction cs with
  | nil => intro p l m st e h; rw [openScan] at h; exact Or.inl h
  | cons c cs' ih =>
    intro p l m st e h
    rw [openScan] at h
    by_cases h1 : (isCodeCtx m && c = '(') = true
    · rw [if_pos h1] at h
      rcases ih _ _ _ _ e h with hst | ⟨hp, hb, hg, hl⟩
      · rcases List.mem_cons.mp hst with rfl | hst'
        · have hc : c = '(' := by
            rw [Bool.and_eq_true, decide_eq_true_eq] at h1
            exact h1.2
          exact Or.inr ⟨le_refl _, by simp, by simp [hc], le_refl _⟩
        · exact Or.inl hst'
      · refine Or.inr ⟨by omega, by simp; omega, ?_, hl⟩
        have harith : e.1 - p = (e.1 - (p + 1)) + 1 := by omega
        rw [harith]
        simpa using hg
    · rw [if_neg h1] at h
      by_cases h2 : (isCodeCtx m && c = ')') = true
      · rw [if_pos h2] at h
        rcases ih _ _ _ _ e h with hst | ⟨hp, hb, hg, hl⟩
        · exact Or.inl (List.mem_of_mem_tail hst)
        · refine Or.inr ⟨by omega, by simp; omega, ?_, hl⟩
          have harith : e.1 - p = (e.1 - (p + 1)) + 1 := by omega
          rw [harith]
          simpa using hg
      · rw [if_neg h2] at h
        rcases ih _ _ _ _ e h with hst | ⟨hp, hb, hg, hl⟩
        · exact Or.inl hst
        · refine Or.inr ⟨by omega, by simp; omega, ?_, ?_⟩
          · have harith : e.1 - p = (e.1 - (p + 1)) + 1 := by omega
            rw [harith]
            simpa using hg
          · by_cases hinc : lexLineInc m c = true
            · rw [if_pos hinc] at hl; omega
            · rw [if_neg hinc] at hl; omega

theorem openScan_desc :
    ∀ cs p l m st, (∀ e ∈ st, e.1 < p) →
      List.Pairwise (fun a b : Nat × Nat => b.1 < a.1) st →
      List.Pairwise (fun a b : Nat × Nat => b.1 < a.1)
        (openScan cs p l m st) := by
  intro cs
  induction cs with
  | nil => intro p l m st _ hp; rw [openScan]; exact hp
  | cons c cs' ih =>
    intro p l m st hb hp
    rw [openScan]
    by_cases h1 : (isCodeCtx m && c = '(') = true
    · rw [if_pos h1]
      refine ih _ _ _ _ ?_ ?_
      · intro e he
        rcases List.mem_cons.mp he with rfl | he'
        · simp
        · have := hb e he'
          omega
      · exact List.Pairwise.cons (fun e he => hb e he) hp
    · rw [if_neg h1]
      by_cases h2 : (isCodeCtx m && c = ')') = true
      · rw [if_pos h2]
        refine ih _ _ _ _ ?_ ?_
        · intro e he
          have := hb e (List.mem_of_mem_tail he)
          omega
        · exact hp.sublist (List.tail_sublist st)
      · rw [if_neg h2]
        refine ih _ _ _ _ ?_ hp
        intro e he
        have := hb e he
        omega

theorem openScan_head_max (doc : List Char) (q ln : Nat)
    (h : (openScan doc 0 1 .code []).head? = some (q, ln)) :
    ∀ e ∈ openScan doc 0 1 .code [], e.1 ≤ q := by
  have hdesc := openScan_desc doc 0 1 .code [] (by simp) (by simp)
  cases hres : openScan doc 0 1 .code [] with
  | nil => rw [hres] at h; simp at h
  | cons a tail =>
    rw [hres] at h hdesc
    simp at h
    intro e he
    rcases List.mem_cons.mp he with rfl | he'
    · rw [h]
    · have h2 := (List.pairwise_cons.mp hdesc).1 e he'
      rw [h] at h2
      simp at h2
      omega

/-- C7: each paren detector emits at most one issue per scan.  The
    close-paren issue points at a close parenthesis such that the scan
    of the strict prefix before it finds nothing (the first unmatched
    closer left to right), and its repair deletes exactly that
    character of whatever text it is given.  The open-paren issue points
    at an open parenthesis whose offset is maximal among all unmatched
    open parens on the final stack (the rightmost), and its repair
    deletes exactly that character. -/
theorem c7_single_shot (doc : List Char) :
    (extended_unmatched_close_paren doc).length ≤ 1 ∧
    (extended_unmatched_open_paren doc).length ≤ 1 ∧
    (∀ i ∈ extended_unmatched_close_paren doc, ∃ idx,
      i.span = (idx, idx + 1) ∧ doc[idx]? = some ')' ∧
      closeScan (doc.take idx) 0 1 .code 0 = none ∧
      ∃ f, i.apply_fn = some f ∧
        ∀ t, f t = t.take idx ++ t.drop (idx + 1)) ∧
    (∀ i ∈ extended_unmatched_open_paren doc, ∃ idx,
      i.span = (idx, idx + 1) ∧ doc[idx]? = some '(' ∧
      (∀ e ∈ openScan doc 0 1 .code [], e.1 ≤ idx) ∧
      ∃ f, i.apply_fn = some f ∧
        ∀ t, f t = t.take idx ++ t.drop (idx + 1)) := by
  refine ⟨?_, ?_, ?_, ?_⟩
  · rw [extended_unmatched_close_paren]
    cases hs : closeScan doc 0 1 .code 0 with
    | none => simp
    | some r => simp
  · rw [extended_unmatched_open_paren]
    cases hs : (openScan doc 0 1 .code []).head? with
    | none => simp
    | some r => simp
  · intro i hi
    rw [extended_unmatched_close_paren] at hi
    cases hs : closeScan doc 0 1 .code 0 with
    | none => rw [hs] at hi; simp at hi
    | some r =>
      rw [hs] at hi
      rcases List.mem_cons.mp hi with rfl | hi'
      · obtain ⟨_, _, hg, _⟩ := closeScan_found doc 0 1 .code 0 r.1 r.2
          (by rw [hs])
        refine ⟨r.1, rfl, by simpa using hg,
          closeScan_take_none doc r.1 r.2 (by rw [hs]), _, rfl,
          fun t => rfl⟩
      · simp at hi'
  · intro i hi
    rw [extended_unmatched_open_paren] at hi
    cases hs : (openScan doc 0 1 .code []).head? with
    | none => rw [hs] at hi; simp at hi
    | some r =>
      rw [hs] at hi
      rcases List.mem_cons.mp hi with rfl | hi'
      · have hmem : r ∈ openScan doc 0 1 .code [] :=
          List.mem_of_mem_head? (by rw [hs]; rfl)
        rcases openScan_entries doc 0 1 .code [] r hmem with habs | hr
        · simp at habs
        · refine ⟨r.1, rfl, by simpa using hr.2.2.1,
            openScan_head_max doc r.1 r.2 (by rw [hs]), _, rfl,
            fun t => rfl⟩
      · simp at hi'

/-- Witness for C7 at concrete one-character documents. -/
theorem c7_single_shot_witness :
    (∃ i ∈ extended_unmatched_close_paren ((")").data), ∃ idx,
      i.span = (idx, idx + 1) ∧ (((")").data))[idx]? = some ')' ∧
      closeScan (((")").data).take idx) 0 1 .code 0 = none ∧
      ∃ f, i.apply_fn = some f ∧
        ∀ t, f t = t.take idx ++ t.drop (idx + 1)) ∧
    (∃ i ∈ extended_unmatched_open_paren (("(").data), ∃ idx,
      i.span = (idx, idx + 1) ∧ ((("(").data))[idx]? = some '(' ∧
      (∀ e ∈ openScan (("(").data) 0 1 .code [], e.1 ≤ idx) ∧
      ∃ f, i.apply_fn = some f ∧
        ∀ t, f t = t.take idx ++ t.drop (idx + 1)) := by
  constructor
  · obtain ⟨a, rest, h⟩ :
        ∃ a rest, extended_unmatched_close_paren ((")").data) = a :: rest := by
      cases h : extended_unmatched_close_paren ((")").data) with
      | nil => exact absurd (congrArg List.length h) (by decide)
      | cons a t => exact ⟨a, t, rfl⟩
    have hmem : a ∈ extended_unmatched_close_paren ((")").data) := by
      simp [h]
    exact ⟨a, hmem, (c7_single_shot ((")").data)).2.2.1 a hmem⟩
  · obtain ⟨a, rest, h⟩ :
        ∃ a rest, extended_unmatched_open_paren (("(").data) = a :: rest := by
      cases h : extended_unmatched_open_paren (("(").data) with
      | nil => exact absurd (congrArg List.length h) (by decide)
      | cons a t => exact ⟨a, t, rfl⟩
    have hmem : a ∈ extended_unmatched_open_paren (("(").data) := by
      simp [h]
    exact ⟨a, hmem, (c7_single_shot (("(").data)).2.2.2 a hmem⟩

/-- Witness for the amended C1 at a concrete document. -/
theorem c1_dp_captured_offset_witness :
    ∃ i ∈ check_defaultproperties (("defaultproperties").data), ∃ p,
      kwAtStart dpWord ((("defaultproperties").data).drop p) = true ∧
      p + dpWord.length ≤ (("defaultproperties").data).length ∧
      (((("defaultproperties").data).drop (p + dpWord.length)).dropWhile
        pySpace).head? ≠ some lbrace ∧
      i.line = ((("defaultproperties").data).take p).count '\n' + 1 ∧
      ∃ f, i.apply_fn = some f ∧ ∀ t,
        f t = t.take (p + dpWord.length) ++ (" \x7b\n\x7d\n").data ++
          t.drop (p + dpWord.length) := by
  obtain ⟨a, rest, h⟩ :
      ∃ a rest, check_defaultproperties (("defaultproperties").data) =
        a :: rest := by
    cases h : check_defaultproperties (("defaultproperties").data) with
    | nil => exact absurd (congrArg List.length h) (by decide)
    | cons a t => exact ⟨a, t, rfl⟩
  have hmem : a ∈ check_defaultproperties (("defaultproperties").data) := by
    simp [h]
  exact ⟨a, hmem, c1_dp_captured_offset _ a hmem⟩

/-! Unterminated lexical constructs extend to the end of the document. -/

theorem lexLineInc_ne (m : LexMode) (c : Char) (h : ¬ c = '\n') :
    lexLineInc m c = false := by
  cases m <;> simp [lexLineInc, h]

theorem closeAfter_ml :
    ∀ a m l d, (closeAfter a (m, l, d)).1 = (lexML a (m, l)).1 ∧
      (closeAfter a (m, l, d)).2.1 = (lexML a (m, l)).2 := by
  intro a
  induction a with
  | nil => intro m l d; exact ⟨rfl, rfl⟩
  | cons c cs ih =>
    intro m l d
    by_cases h1 : (isCodeCtx m && c = ')') = true
    · have hc : c = ')' := by
        rw [Bool.and_eq_true, decide_eq_true_eq] at h1
        exact h1.2
      have hlml : lexML (c :: cs) (m, l) = lexML cs (lexAdvance m c, l) := by
        rw [lexML]
        simp [lexLineInc_ne m c (by rw [hc]; decide)]
      rw [closeAfter, if_pos h1, hlml]
      exact ih _ _ _
    · by_cases h2 : (isCodeCtx m && c = '(') = true
      · have hc : c = '(' := by
          rw [Bool.and_eq_true, decide_eq_true_eq] at h2
          exact h2.2
        have hlml : lexML (c :: cs) (m, l) = lexML cs (lexAdvance m c, l) := by
          rw [lexML]
          simp [lexLineInc_ne m c (by rw [hc]; decide)]
        rw [closeAfter, if_neg h1, if_pos h2, hlml]
        exact ih _ _ _
      · have hlml : lexML (c :: cs) (m, l) = lexML cs (lexAdvance m c,
            if lexLineInc m c then l + 1 else l) := by
          rw [lexML]
        rw [closeAfter, if_neg h1, if_neg h2, hlml]
        exact ih _ _ _

theorem openScan_append :
    ∀ a b p l m st, openScan (a ++ b) p l m st =
      openScan b (p + a.length) (lexML a (m, l)).2 (lexML a (m, l)).1
        (openScan a p l m st) := by
  intro a
  induction a with
  | nil => intro b p l m st; simp [lexML, openScan]
  | cons c cs ih =>
    intro b p l m st
    have harith : p + 1 + cs.length = p + (c :: cs).length := by
      simp
      omega
    by_cases h1 : (isCodeCtx m && c = '(') = true
    · have hc : c = '(' := by
        rw [Bool.and_eq_true, decide_eq_true_eq] at h1
        exact h1.2
      have hlml : lexML (c :: cs) (m, l) = lexML cs (lexAdvance m c, l) := by
        rw [lexML]
        simp [lexLineInc_ne m c (by rw [hc]; decide)]
      rw [List.cons_append, openScan, if_pos h1, openScan, if_pos h1,
        ih, hlml, harith]
    · by_cases h2 : (isCodeCtx m && c = ')') = true
      · have hc : c = ')' := by
          rw [Bool.and_eq_true, decide_eq_true_eq] at h2
          exact h2.2
        have hlml : lexML (c :: cs) (m, l) = lexML cs (lexAdvance m c, l) := by
          rw [lexML]
          simp [lexLineInc_ne m c (by rw [hc]; decide)]
        rw [List.cons_append, openScan, if_neg h1, if_pos h2, openScan,
          if_neg h1, if_pos h2, ih, hlml, harith]
      · have hlml : lexML (c :: cs) (m, l) = lexML cs (lexAdvance m c,
            if lexLineInc m c then l + 1 else l) := by
          rw [lexML]
        rw [List.cons_append, openScan, if_neg h1, if_neg h2, openScan,
          if_neg h1, if_neg h2, ih, hlml, harith]

theorem closeScan_block_none :
    ∀ cs p l d,
      (blockOkM false cs = true → closeScan cs p l .block d = none) ∧
      (blockOkM true cs = true → closeScan cs p l .blockStar d = none) := by
  intro cs
  induction cs with
  | nil => intro p l d; exact ⟨fun _ => rfl, fun _ => rfl⟩
  | cons c cs ih =>
    intro p l d
    constructor
    · intro hok
      rw [blockOkM] at hok
      by_cases hc : c = '*'
      · rw [if_pos hc] at hok
        have hstep : closeScan (c :: cs) p l .block d = closeScan cs (p + 1)
            (if lexLineInc .block c then l + 1 else l)
            (lexAdvance .block c) d := rfl
        rw [hstep, hc]
        exact (ih _ _ _).2 hok
      · rw [if_neg hc] at hok
        have hstep : closeScan (c :: cs) p l .block d = closeScan cs (p + 1)
            (if lexLineInc .block c then l + 1 else l)
            (lexAdvance .block c) d := rfl
        rw [hstep]
        have hadv : lexAdvance .block c = .block := by
          simp [lexAdvance, hc]
        rw [hadv]
        exact (ih _ _ _).1 hok
    · intro hok
      rw [blockOkM] at hok
      by_cases hsl : c = '/'
      · rw [if_pos hsl] at hok
        exact absurd hok (by simp)
      · rw [if_neg hsl] at hok
        have hstep : closeScan (c :: cs) p l .blockStar d =
            closeScan cs (p + 1)
              (if lexLineInc .blockStar c then l + 1 else l)
              (lexAdvance .blockStar c) d := rfl
        rw [hstep]
        by_cases hc : c = '*'
        · rw [if_pos hc] at hok
          have hadv : lexAdvance .blockStar c = .blockStar := by
            simp [lexAdvance, hc]
          rw [hadv]
          exact (ih _ _ _).2 hok
        · rw [if_neg hc] at hok
          have hadv : lexAdvance .blockStar c = .block := by
            simp [lexAdvance, hsl, hc]
          rw [hadv]
          exact (ih _ _ _).1 hok

theorem openScan_block_id :
    ∀ cs p l st,
      (blockOkM false cs = true → openScan cs p l .block st = st) ∧
      (blockOkM true cs = true → openScan cs p l .blockStar st = st) := by
  intro cs
  induction cs with
  | nil => intro p l st; exact ⟨fun _ => rfl, fun _ => rfl⟩
  | cons c cs ih =>
    intro p l st
    constructor
    · intro hok
      rw [blockOkM] at hok
      have hstep : openScan (c :: cs) p l .block st = openScan cs (p + 1)
          (if lexLineInc .block c then l + 1 else l)
          (lexAdvance .block c) st := rfl
      rw [hstep]
      by_cases hc : c = '*'
      · rw [if_pos hc] at hok
        have hadv : lexAdvance .block c = .blockStar := by
          simp [lexAdvance, hc]
        rw [hadv]
        exact (ih _ _ _).2 hok
      · rw [if_neg hc] at hok
        have hadv : lexAdvance .block c = .block := by
          simp [lexAdvance, hc]
        rw [hadv]
        exact (ih _ _ _).1 hok
    · intro hok
      rw [blockOkM] at hok
      by_cases hsl : c = '/'
      · rw [if_pos hsl] at hok
        exact absurd hok (by simp)
      · rw [if_neg hsl] at hok
        have hstep : openScan (c :: cs) p l .blockStar st =
            openScan cs (p + 1)
              (if lexLineInc .blockStar c then l + 1 else l)
              (lexAdvance .blockStar c) st := rfl
        rw [hstep]
        by_cases hc : c = '*'
        · rw [if_pos hc] at hok
          have hadv : lexAdvance .blockStar c = .blockStar := by
            simp [lexAdvance, hc]
          rw [hadv]
          exact (ih _ _ _).2 hok
        · rw [if_neg hc] at hok
          have hadv : lexAdvance .blockStar c = .block := by
            simp [lexAdvance, hsl, hc]
          rw [hadv]
          exact (ih _ _ _).1 hok

theorem closeScan_strQ_none (q : Char) :
    ∀ n cs, cs.length ≤ n → strNoClose q cs = true →
      ∀ p l d, closeScan cs p l (.strQ q) d = none := by
  intro n
  induction n with
  | zero =>
    intro cs hlen _ p l d
    cases cs with
    | nil => rfl
    | cons c cs' => simp at hlen
  | succ k ih =>
    intro cs hlen hok p l d
    cases cs with
    | nil => rfl
    | cons c cs' =>
      have hstep : closeScan (c :: cs') p l (.strQ q) d =
          closeScan cs' (p + 1)
            (if lexLineInc (.strQ q) c then l + 1 else l)
            (lexAdvance (.strQ q) c) d := rfl
      cases cs' with
      | nil => rfl
      | cons c2 cs'' =>
        rw [strNoClose] at hok
        by_cases hbs : c = '\\'
        · rw [if_pos hbs] at hok
          rw [hstep]
          have hadv : lexAdvance (.strQ q) c = .strEsc q := by
            simp [lexAdvance, hbs]
          rw [hadv]
          have hstep2 : closeScan (c2 :: cs'') (p + 1)
              (if lexLineInc (.strQ q) c then l + 1 else l) (.strEsc q) d =
              closeScan cs'' (p + 1 + 1)
                (if lexLineInc (.strQ q) c then l + 1 else l)
                (.strQ q) d := rfl
          rw [hstep2]
          exact ih cs'' (by simp at hlen; omega) hok _ _ _
        · rw [if_neg hbs] at hok
          by_cases hq : c = q
          · rw [if_pos hq] at hok
            exact absurd hok (by simp)
          · rw [if_neg hq] at hok
            rw [hstep]
            have hadv : lexAdvance (.strQ q) c = .strQ q := by
              simp [lexAdvance, hbs, hq]
            rw [hadv]
            exact ih (c2 :: cs'') (by simp at hlen ⊢; omega) hok _ _ _

theorem openScan_strQ_id (q : Char) :
    ∀ n cs, cs.length ≤ n → strNoClose q cs = true →
      ∀ p l st, openScan cs p l (.strQ q) st = st := by
  intro n
  induction n with
  | zero =>
    intro cs hlen _ p l st
    cases cs with
    | nil => rfl
    | cons c cs' => simp at hlen
  | succ k ih =>
    intro cs hlen hok p l st
    cases cs with
    | nil => rfl
    | cons c cs' =>
      have hstep : openScan (c :: cs') p l (.strQ q) st =
          openScan cs' (p + 1)
            (if lexLineInc (.strQ q) c then l + 1 else l)
            (lexAdvance (.strQ q) c) st := rfl
      cases cs' with
      | nil => rfl
      | cons c2 cs'' =>
        rw [strNoClose] at hok
        by_cases hbs : c = '\\'
        · rw [if_pos hbs] at hok
          rw [hstep]
          have hadv : lexAdvance (.strQ q) c = .strEsc q := by
            simp [lexAdvance, hbs]
          rw [hadv]
          have hstep2 : openScan (c2 :: cs'') (p + 1)
              (if lexLineInc (.strQ q) c then l + 1 else l) (.strEsc q) st =
              openScan cs'' (p + 1 + 1)
                (if lexLineInc (.strQ q) c then l + 1 else l)
                (.strQ q) st := rfl
          rw [hstep2]
          exact ih cs'' (by simp at hlen; omega) hok _ _ _
        · rw [if_neg hbs] at hok
          by_cases hq : c = q
          · rw [if_pos hq] at hok
            exact absurd hok (by simp)
          · rw [if_neg hq] at hok
            rw [hstep]
            have hadv : lexAdvance (.strQ q) c = .strQ q := by
              simp [lexAdvance, hbs, hq]
            rw [hadv]
            exact ih (c2 :: cs'') (by simp at hlen ⊢; omega) hok _ _ _

/-- C8: malformed lexical tails never derail the paren scanners: a
    block comment opener never closed in the remaining text, or a quote
    never closed in the remaining text, swallows that whole tail, and
    each paren detector returns exactly what it returns on the prefix
    alone.  Together with every embedded operation being total, a scan
    of such malformed input completes normally. -/
theorem c8_unterminated_extends (x c : List Char) (q : Char)
    (hx : (lexML x (.code, 1)).1 = .code) :
    (blockOkM false c = true →
      extended_unmatched_close_paren (x ++ '/' :: '*' :: c) =
        extended_unmatched_close_paren x ∧
      extended_unmatched_open_paren (x ++ '/' :: '*' :: c) =
        extended_unmatched_open_paren x) ∧
    ((q = squote ∨ q = dquote) → strNoClose q c = true →
      extended_unmatched_close_paren (x ++ q :: c) =
        extended_unmatched_close_paren x ∧
      extended_unmatched_open_paren (x ++ q :: c) =
        extended_unmatched_open_paren x) := by
  constructor
  · intro hok
    constructor
    · have hscan : closeScan (x ++ '/' :: '*' :: c) 0 1 .code 0 =
          closeScan x 0 1 .code 0 := by
        cases hxs : closeScan x 0 1 .code 0 with
        | some r => exact closeScan_append_some x _ 0 1 .code 0 r hxs
        | none =>
          rw [closeScan_append_none x _ 0 1 .code 0 hxs]
          have hml := closeAfter_ml x .code 1 0
          rw [hml.1, hx]
          have hstep : closeScan ('/' :: '*' :: c) (0 + x.length)
              (closeAfter x (.code, 1, 0)).2.1 .code
              (closeAfter x (.code, 1, 0)).2.2 =
              closeScan c (0 + x.length + 1 + 1)
                (closeAfter x (.code, 1, 0)).2.1 .block
                (closeAfter x (.code, 1, 0)).2.2 := rfl
          rw [hstep]
          exact (closeScan_block_none c _ _ _).1 hok
      unfold extended_unmatched_close_paren
      rw [hscan]
    · have hscan : openScan (x ++ '/' :: '*' :: c) 0 1 .code [] =
          openScan x 0 1 .code [] := by
        rw [openScan_append x _ 0 1 .code [], hx]
        have hstep : openScan ('/' :: '*' :: c) (0 + x.length)
            (lexML x (.code, 1)).2 .code (openScan x 0 1 .code []) =
            openScan c (0 + x.length + 1 + 1) (lexML x (.code, 1)).2 .block
              (openScan x 0 1 .code []) := rfl
        rw [hstep]
        exact (openScan_block_id c _ _ _).1 hok
      unfold extended_unmatched_open_paren
      rw [hscan]
  · intro hq hok
    constructor
    · have hscan : closeScan (x ++ q :: c) 0 1 .code 0 =
          closeScan x 0 1 .code 0 := by
        cases hxs : closeScan x 0 1 .code 0 with
        | some r => exact closeScan_append_some x _ 0 1 .code 0 r hxs
        | none =>
          rw [closeScan_append_none x _ 0 1 .code 0 hxs]
          have hml := closeAfter_ml x .code 1 0
          rw [hml.1, hx]
          rcases hq with rfl | rfl
          · have hstep : closeScan (squote :: c) (0 + x.length)
                (closeAfter x (.code, 1, 0)).2.1 .code
                (closeAfter x (.code, 1, 0)).2.2 =
                closeScan c (0 + x.length + 1)
                  (closeAfter x (.code, 1, 0)).2.1 (.strQ squote)
                  (closeAfter x (.code, 1, 0)).2.2 := rfl
            rw [hstep]
            exact closeScan_strQ_none squote c.length c (le_refl _) hok _ _ _
          · have hstep : closeScan (dquote :: c) (0 + x.length)
                (closeAfter x (.code, 1, 0)).2.1 .code
                (closeAfter x (.code, 1, 0)).2.2 =
                closeScan c (0 + x.length + 1)
                  (closeAfter x (.code, 1, 0)).2.1 (.strQ dquote)
                  (closeAfter x (.code, 1, 0)).2.2 := rfl
            rw [hstep]
            exact closeScan_strQ_none dquote c.length c (le_refl _) hok _ _ _
      unfold extended_unmatched_close_paren
      rw [hscan]
    · have hscan : openScan (x ++ q :: c) 0 1 .code [] =
          openScan x 0 1 .code [] := by
        rw [openScan_append x _ 0 1 .code [], hx]
        rcases hq with rfl | rfl
        · have hstep : openScan (squote :: c) (0 + x.length)
              (lexML x (.code, 1)).2 .code (openScan x 0 1 .code []) =
              openScan c (0 + x.length + 1) (lexML x (.code, 1)).2
                (.strQ squote) (openScan x 0 1 .code []) := rfl
          rw [hstep]
          exact openScan_strQ_id squote c.length c (le_refl _) hok _ _ _
        · have hstep : openScan (dquote :: c) (0 + x.length)
              (lexML x (.code, 1)).2 .code (openScan x 0 1 .code []) =
              openScan c (0 + x.length + 1) (lexML x (.code, 1)).2
                (.strQ dquote) (openScan x 0 1 .code []) := rfl
          rw [hstep]
          exact openScan_strQ_id dquote c.length c (le_refl _) hok _ _ _
      unfold extended_unmatched_open_paren
      rw [hscan]

/-- Witness for C8: an unterminated block comment and an unterminated
    string with stray parens inside change nothing for either paren
    detector on a concrete prefix. -/
theorem c8_unterminated_extends_witness :
    extended_unmatched_close_paren
        (("f(x)) ").data ++ '/' :: '*' :: (" ))( ").data) =
      extended_unmatched_close_paren (("f(x)) ").data) ∧
    extended_unmatched_open_paren
        (("f(x)) ").data ++ squote :: (" ))((").data) =
      extended_unmatched_open_paren (("f(x)) ").data) := by
  refine ⟨((c8_unterminated_extends (("f(x)) ").data) ((" ))( ").data)
    squote (by decide)).1 (by decide)).1, ?_⟩
  exact ((c8_unterminated_extends (("f(x)) ").data) ((" ))((").data)
    squote (by decide)).2 (Or.inl rfl) (by decide)).2

/-! Span and line bounds of every detector. -/

theorem cpptextGo_bounds :
    ∀ ls n offs B, 1 ≤ n → offs + (ls.map List.length).sum ≤ B →
      ∀ i ∈ cpptextGo ls n offs,
        1 ≤ i.line ∧ i.span.1 ≤ i.span.2 ∧ i.span.2 ≤ B := by
  intro ls
  induction ls with
  | nil => intro n offs B _ _ i hi; simp [cpptextGo] at hi
  | cons line rest ih =>
    intro n offs B hn hB i hi
    rw [cpptextGo] at hi
    have hB2 : offs + line.length + (rest.map List.length).sum ≤ B := by
      simp at hB
      omega
    have hrec := ih (n + 1) (offs + line.length) B (by omega) hB2 i
    by_cases h1 : hasWord (("cpptext").data) line = true
    · rw [if_pos h1] at hi
      by_cases h2 : lbrace ∈ line
      · rw [if_pos h2] at hi
        exact hrec hi
      · rw [if_neg h2] at hi
        by_cases h3 : (!startsOpenBrace
            ((rest.dropWhile blankOrComment).headD [])) = true
        · rw [if_pos h3] at hi
          rcases List.mem_cons.mp hi with rfl | hi'
          · refine ⟨hn, by simp, ?_⟩
            simp at hB ⊢
            omega
          · exact hrec hi'
        · rw [if_neg h3] at hi
          exact hrec hi
    · rw [if_neg h1] at hi
      exact hrec hi

theorem semiGo_bounds :
    ∀ ls n offs B, 1 ≤ n → offs + (ls.map List.length).sum ≤ B →
      ∀ i ∈ semiGo ls n offs,
        1 ≤ i.line ∧ i.span.1 ≤ i.span.2 ∧ i.span.2 ≤ B := by
  intro ls
  induction ls with
  | nil => intro n offs B _ _ i hi; simp [semiGo] at hi
  | cons line rest ih =>
    intro n offs B hn hB i hi
    rw [semiGo] at hi
    have hB2 : offs + line.length + (rest.map List.length).sum ≤ B := by
      simp at hB
      omega
    have hrec := ih (n + 1) (offs + line.length) B (by omega) hB2 i
    by_cases h1 : ((pyStrip line).isEmpty ||
        (pyStrip line).take 2 = ['/', '/'] ||
        (pyStrip line).getLast? = some lbrace ||
        (pyStrip line).getLast? = some rbrace ||
        (pyStrip line).take 2 = ['/', '*']) = true
    · rw [if_pos h1] at hi
      exact hrec hi
    · rw [if_neg h1] at hi
      by_cases h2 : ((varDeclMatch (pyStrip line) ||
          assignMatch (pyStrip line)) &&
          !((pyStrip line).getLast? = some ';')) = true
      · rw [if_pos h2] at hi
        rcases List.mem_cons.mp hi with rfl | hi'
        · refine ⟨hn, by simp, ?_⟩
          simp at hB ⊢
          omega
        · exact hrec hi'
      · rw [if_neg h2] at hi
        exact hrec hi

theorem ctrlGo_bounds :
    ∀ ls n offs B, 1 ≤ n → offs + (ls.map List.length).sum ≤ B →
      ∀ i ∈ ctrlGo ls n offs,
        1 ≤ i.line ∧ i.span.1 ≤ i.span.2 ∧ i.span.2 ≤ B := by
  intro ls
  induction ls with
  | nil => intro n offs B _ _ i hi; simp [ctrlGo] at hi
  | cons line rest ih =>
    intro n offs B hn hB i hi
    rw [ctrlGo] at hi
    have hB2 : offs + line.length + (rest.map List.length).sum ≤ B := by
      simp at hB
      omega
    have hrec := ih (n + 1) (offs + line.length) B (by omega) hB2 i
    by_cases h1 : (isCtrlLine line &&
        line.count '(' = line.count ')' + 1) = true
    · rw [if_pos h1] at hi
      rcases List.mem_cons.mp hi with rfl | hi'
      · refine ⟨hn, by simp, ?_⟩
        simp at hB ⊢
        omega
      · exact hrec hi'
    · rw [if_neg h1] at hi
      exact hrec hi

theorem check_defaultproperties_bounds (doc : List Char) :
    ∀ i ∈ check_defaultproperties doc,
      1 ≤ i.line ∧ i.span.1 ≤ i.span.2 ∧ i.span.2 ≤ doc.length := by
  intro i hi
  rw [check_defaultproperties] at hi
  obtain ⟨p, hp, hg⟩ := List.mem_filterMap.mp hi
  by_cases hb :
      ((doc.drop (p + dpWord.length)).dropWhile pySpace).head? = some lbrace
  · simp [hb] at hg
  · have hg2 : some (Issue.mk "defaultprops-brace"
        (dpMsg ((doc.take p).count '\n' + 1)) ((doc.take p).count '\n' + 1)
        (p - 5, min doc.length (p + dpWord.length + 5)) none
        (some (dpApply (p + dpWord.length)))) = some i := by
      rw [← hg]
      simp [hb]
    obtain ⟨_, hlen⟩ := findWordAll_mem dpWord (by decide) doc p hp
    rw [← Option.some.inj hg2]
    refine ⟨?_, ?_, ?_⟩
    · show 1 ≤ (doc.take p).count '\n' + 1
      omega
    · show p - 5 ≤ min doc.length (p + dpWord.length + 5)
      refine le_min (by omega) (by omega)
    · show min doc.length (p + dpWord.length + 5) ≤ doc.length
      exact min_le_left _ _

theorem dropWhileLenLe (p : Char → Bool) :
    ∀ l : List Char, (l.dropWhile p).length ≤ l.length := by
  intro l
  induction l with
  | nil => simp
  | cons c cs ih =>
    by_cases hc : p c = true
    · rw [List.dropWhile_cons, if_pos hc]
      simp
      omega
    · rw [List.dropWhile_cons, if_neg hc]

theorem takeWhileLenLe (p : Char → Bool) :
    ∀ l : List Char, (l.takeWhile p).length ≤ l.length := by
  intro l
  induction l with
  | nil => simp
  | cons c cs ih =>
    by_cases hc : p c = true
    · rw [List.takeWhile_cons, if_pos hc]
      simp
      omega
    · rw [List.takeWhile_cons, if_neg hc]
      simp

theorem lastOpenBrace_lt :
    ∀ cs j, lastOpenBrace cs = some j → j < cs.length := by
  intro cs
  induction cs with
  | nil => intro j h; simp [lastOpenBrace] at h
  | cons c cs ih =>
    intro j h
    rw [lastOpenBrace] at h
    cases hr : lastOpenBrace cs with
    | some j2 =>
      rw [hr] at h
      have := ih j2 hr
      have hj := Option.some.inj h
      simp
      omega
    | none =>
      rw [hr] at h
      by_cases hc : c = lbrace
      · rw [if_pos hc] at h
        have hj := Option.some.inj h
        simp
        omega
      · rw [if_neg hc] at h
        exact absurd h (by simp)

theorem seTry_bound (k u : List Char) (r : Nat × String)
    (h : seTry k u = some r) : 1 ≤ r.1 ∧ r.1 ≤ u.length := by
  rw [seTry] at h
  by_cases hkw : kwAtStart k (u.dropWhile pySpace) = true
  · rw [if_pos hkw] at h
    cases hlb : lastOpenBrace (((u.dropWhile pySpace).drop
        k.length).takeWhile (fun c => !(c = '\n'))) with
    | none => rw [hlb] at h; exact absurd h (by simp)
    | some j =>
      rw [hlb] at h
      have hj := lastOpenBrace_lt _ j hlb
      have hlw := kwAtStart_le k _ hkw
      have hwu : (u.dropWhile pySpace).length ≤ u.length :=
        dropWhileLenLe _ _
      have htw : (((u.dropWhile pySpace).drop k.length).takeWhile
          (fun c => !(c = '\n'))).length ≤
          (u.dropWhile pySpace).length - k.length := by
        have h1 := takeWhileLenLe (fun c : Char => !(c = '\n'))
          ((u.dropWhile pySpace).drop k.length)
        simpa using h1
      have hr1 := Option.some.inj h
      rw [← hr1]
      constructor
      · simp
      · simp
        omega
  · rw [if_neg hkw] at h
    exact absurd h (by simp)

theorem seMatchAt_bound (u : List Char) (r : Nat × String)
    (h : seMatchAt u = some r) : 1 ≤ r.1 ∧ r.1 ≤ u.length := by
  rw [seMatchAt] at h
  cases hs : seTry (("struct").data) u with
  | some r2 =>
    rw [hs] at h
    have := Option.some.inj h
    subst this
    exact seTry_bound _ u r2 hs
  | none =>
    rw [hs] at h
    exact seTry_bound _ u r h

theorem seScanF_bounds :
    ∀ fuel cs p ls, ∀ m ∈ seScanF fuel cs p ls,
      p ≤ m.1 ∧ m.1 < m.2.1 ∧ m.2.1 ≤ p + cs.length := by
  intro fuel
  induction fuel with
  | zero => intro cs p ls m hm; simp [seScanF] at hm
  | succ k ih =>
    intro cs p ls m hm
    cases cs with
    | nil => simp [seScanF] at hm
    | cons c cs' =>
      rw [seScanF] at hm
      by_cases hls : ls = true
      · rw [if_pos hls] at hm
        cases hma : seMatchAt (c :: cs') with
        | some r =>
          rw [hma] at hm
          obtain ⟨hr1, hr2⟩ := seMatchAt_bound _ r hma
          simp only [List.length_cons] at hr2
          rcases List.mem_cons.mp hm with rfl | hm'
          · refine ⟨le_refl _, ?_, ?_⟩
            · show p < p + r.1
              omega
            · show p + r.1 ≤ p + (c :: cs').length
              simp
              omega
          · obtain ⟨h1, h2, h3⟩ := ih _ _ _ m hm'
            have hd : (List.drop (r.1 - 1) cs').length =
                cs'.length - (r.1 - 1) := by simp
            rw [hd] at h3
            refine ⟨by omega, h2, by simp; omega⟩
        | none =>
          rw [hma] at hm
          obtain ⟨h1, h2, h3⟩ := ih _ _ _ m hm
          refine ⟨by omega, h2, by simp; omega⟩
      · rw [if_neg hls] at hm
        obtain ⟨h1, h2, h3⟩ := ih _ _ _ m hm
        refine ⟨by omega, h2, by simp; omega⟩

theorem struct_enum_bounds (doc : List Char) :
    ∀ i ∈ extended_struct_enum_closer doc,
      1 ≤ i.line ∧ i.span.1 ≤ i.span.2 ∧ i.span.2 ≤ doc.length := by
  intro i hi
  rw [extended_struct_enum_closer] at hi
  obtain ⟨m, hm, hg⟩ := List.mem_filterMap.mp hi
  by_cases hw : (braceWalk (doc.drop m.2.1) m.2.1 1 m.2.1).2 = 0
  · simp [hw] at hg
  · have hg2 : some (Issue.mk "struct-enum-close"
        (seMsg m.2.2 ((doc.take m.1).count '\n' + 1))
        ((doc.take m.1).count '\n' + 1) (m.1, m.2.1) none
        (some (seApply
          (match topLevelSearch (doc.drop
              (braceWalk (doc.drop m.2.1) m.2.1 1 m.2.1).1) with
            | some k => (braceWalk (doc.drop m.2.1) m.2.1 1 m.2.1).1 + k
            | none => doc.length)))) = some i := by
      rw [← hg]
      simp [hw]
    obtain ⟨h1, h2, h3⟩ := seScanF_bounds doc.length doc 0 true m hm
    rw [← Option.some.inj hg2]
    refine ⟨?_, ?_, ?_⟩
    · show 1 ≤ (doc.take m.1).count '\n' + 1
      omega
    · show m.1 ≤ m.2.1
      omega
    · show m.2.1 ≤ doc.length
      simpa using h3

theorem close_paren_bounds (doc : List Char) :
    ∀ i ∈ extended_unmatched_close_paren doc,
      1 ≤ i.line ∧ i.span.1 ≤ i.span.2 ∧ i.span.2 ≤ doc.length := by
  intro i hi
  rw [extended_unmatched_close_paren] at hi
  cases hs : closeScan doc 0 1 .code 0 with
  | none => rw [hs] at hi; simp at hi
  | some r =>
    rw [hs] at hi
    rcases List.mem_cons.mp hi with rfl | hi'
    · obtain ⟨_, hb, _, hl⟩ := closeScan_found doc 0 1 .code 0 r.1 r.2
        (by rw [hs])
      refine ⟨hl, ?_, ?_⟩
      · show r.1 ≤ r.1 + 1
        omega
      · show r.1 + 1 ≤ doc.length
        omega
    · simp at hi'

theorem open_paren_bounds (doc : List Char) :
    ∀ i ∈ extended_unmatched_open_paren doc,
      1 ≤ i.line ∧ i.span.1 ≤ i.span.2 ∧ i.span.2 ≤ doc.length := by
  intro i hi
  rw [extended_unmatched_open_paren] at hi
  cases hs : (openScan doc 0 1 .code []).head? with
  | none => rw [hs] at hi; simp at hi
  | some r =>
    rw [hs] at hi
    rcases List.mem_cons.mp hi with rfl | hi'
    · have hmem : r ∈ openScan doc 0 1 .code [] :=
        List.mem_of_mem_head? (by rw [hs]; rfl)
      rcases openScan_entries doc 0 1 .code [] r hmem with habs | hr
      · simp at habs
      · have hb := hr.2.1
        refine ⟨hr.2.2.2, ?_, ?_⟩
        · show r.1 ≤ r.1 + 1
          omega
        · show r.1 + 1 ≤ doc.length
          omega
    · simp at hi'

/-- C10: every issue returned by a scan, under any mode and with or
    without the unmatched-open toggle, carries a 1-based line number of
    at least one and a span lying within the scanned document. -/
theorem c10_issue_bounds (doc : List Char) (ext uo : Bool) :
    ∀ i ∈ scan_with_unmatched doc ext uo,
      1 ≤ i.line ∧ i.span.1 ≤ i.span.2 ∧ i.span.2 ≤ doc.length := by
  intro i hi
  have h1 := (dedupGo_sublist _ _).subset hi
  have hsum : ((splitlinesKeep doc).map List.length).sum = doc.length :=
    splitlines_sum_lengths doc
  rcases List.mem_append.mp h1 with h2 | h2
  · have h3 := (dedupGo_sublist _ _).subset h2
    rw [rawIssues] at h3
    simp only [List.mem_append] at h3
    rcases h3 with ((((h | h) | h) | h) | h) | h
    · exact cpptextGo_bounds _ 1 0 doc.length (le_refl 1) (by omega) i h
    · rw [safe_close_balance] at h
      by_cases hq : braceDelta doc < 0
      · rw [if_pos hq] at h
        rcases List.mem_cons.mp h with rfl | h'
        · exact ⟨le_refl 1, Nat.zero_le _, min_le_right _ _⟩
        · simp at h'
      · rw [if_neg hq] at h
        by_cases hq2 : 0 < braceDelta doc
        · rw [if_pos hq2] at h
          rcases List.mem_cons.mp h with rfl | h'
          · exact ⟨le_refl 1, Nat.zero_le _, min_le_right _ _⟩
          · simp at h'
        · rw [if_neg hq2] at h
          simp at h
    · exact check_defaultproperties_bounds doc i h
    · exact semiGo_bounds _ 1 0 doc.length (le_refl 1) (by omega) i h
    · by_cases hp : doc.count '(' = doc.count ')'
      · rw [if_pos hp] at h
        simp at h
      · rw [if_neg hp] at h
        rcases List.mem_cons.mp h with rfl | h'
        · exact ⟨le_refl 1, Nat.zero_le _, min_le_right _ _⟩
        · simp at h'
    · cases ext with
      | false => simp at h
      | true =>
        simp only [if_true, List.mem_append] at h
        rcases h with (h | h) | h
        · exact ctrlGo_bounds _ 1 0 doc.length (le_refl 1) (by omega) i h
        · exact struct_enum_bounds doc i h
        · exact close_paren_bounds doc i h
  · cases uo with
    | false => simp at h2
    | true =>
      simp only [if_true] at h2
      exact open_paren_bounds doc i h2

/-- Witness for C10 at a concrete document with both toggles on. -/
theorem c10_issue_bounds_witness :
    ∃ i ∈ scan_with_unmatched (("struct S \x7b\nif ((x\n").data) true true,
      1 ≤ i.line ∧ i.span.1 ≤ i.span.2 ∧
        i.span.2 ≤ (("struct S \x7b\nif ((x\n").data).length := by
  obtain ⟨a, rest, h⟩ : ∃ a rest,
      scan_with_unmatched (("struct S \x7b\nif ((x\n").data) true true =
        a :: rest := by
    cases h : scan_with_unmatched (("struct S \x7b\nif ((x\n").data)
        true true with
    | nil => exact absurd (congrArg List.length h) (by decide)
    | cons a t => exact ⟨a, t, rfl⟩
  have hmem : a ∈ scan_with_unmatched (("struct S \x7b\nif ((x\n").data)
      true true := by simp [h]
  exact ⟨a, hmem, c10_issue_bounds _ true true a hmem⟩

theorem closeScan_lineCPass :
    ∀ c, '\n' ∉ c → ∀ rest p l d,
      closeScan (c ++ rest) p l .lineC d =
        closeScan rest (p + c.length) l .lineC d := by
  intro c
  induction c with
  | nil => intro _ rest p l d; simp
  | cons x c' ih =>
    intro hn rest p l d
    have hx : ¬ x = '\n' := by
      intro hc
      exact hn (by simp [hc])
    have hstep : closeScan ((x :: c') ++ rest) p l .lineC d =
        closeScan (c' ++ rest) (p + 1)
          (if lexLineInc .lineC x then l + 1 else l)
          (lexAdvance .lineC x) d := rfl
    rw [hstep]
    have hadv : lexAdvance .lineC x = .lineC := by
      simp [lexAdvance, hx]
    have hinc : lexLineInc .lineC x = false := lexLineInc_ne _ _ hx
    rw [hadv, hinc]
    simp only [Bool.false_eq_true, if_false]
    rw [ih (by intro hm; exact hn (by simp [hm])) rest (p + 1) l d]
    congr 1
    simp
    omega

theorem closeScan_blockPass :
    ∀ c rest p l d,
      (blockOkM false c = true →
        closeScan (c ++ '*' :: '/' :: rest) p l .block d =
          closeScan rest (p + c.length + 2) (l + c.count '\n') .code d) ∧
      (blockOkM true c = true →
        closeScan (c ++ '*' :: '/' :: rest) p l .blockStar d =
          closeScan rest (p + c.length + 2) (l + c.count '\n') .code d) := by
  intro c
  induction c with
  | nil =>
    intro rest p l d
    constructor
    · intro _
      rfl
    · intro _
      rfl
  | cons x c' ih =>
    intro rest p l d
    have hcount : (x :: c').count '\n' =
        (if x = '\n' then 1 else 0) + c'.count '\n' := by
      by_cases hx : x = '\n'
      · simp [List.count_cons, hx]
        omega
      · simp [List.count_cons, hx, fun h : '\n' = x => hx h.symm]
    constructor
    · intro hok
      rw [blockOkM] at hok
      have hstep : closeScan ((x :: c') ++ '*' :: '/' :: rest) p l
          .block d = closeScan (c' ++ '*' :: '/' :: rest) (p + 1)
            (if lexLineInc .block x then l + 1 else l)
            (lexAdvance .block x) d := rfl
      rw [hstep]
      by_cases hx : x = '*'
      · rw [if_pos hx] at hok
        have hadv : lexAdvance .block x = .blockStar := by
          simp [lexAdvance, hx]
        have hinc : lexLineInc .block x = false :=
          lexLineInc_ne _ _ (by rw [hx]; decide)
        rw [hadv, hinc]
        simp only [Bool.false_eq_true, if_false]
        rw [(ih _ _ _ _).2 hok, hcount]
        congr 1
        · simp
          omega
        · simp [hx]
      · rw [if_neg hx] at hok
        have hadv : lexAdvance .block x = .block := by
          simp [lexAdvance, hx]
        rw [hadv]
        by_cases hxn : x = '\n'
        · have hinc : lexLineInc .block x = true := by
            simp [lexLineInc, hxn]
          rw [hinc]
          simp only [if_true]
          rw [(ih _ _ _ _).1 hok, hcount]
          congr 1
          · simp
            omega
          · simp [hxn]
            omega
        · have hinc : lexLineInc .block x = false := lexLineInc_ne _ _ hxn
          rw [hinc]
          simp only [Bool.false_eq_true, if_false]
          rw [(ih _ _ _ _).1 hok, hcount]
          congr 1
          · simp
            omega
          · simp [hxn]
    · intro hok
      rw [blockOkM] at hok
      have hstep : closeScan ((x :: c') ++ '*' :: '/' :: rest) p l
          .blockStar d = closeScan (c' ++ '*' :: '/' :: rest) (p + 1)
            (if lexLineInc .blockStar x then l + 1 else l)
            (lexAdvance .blockStar x) d := rfl
      rw [hstep]
      by_cases hsl : x = '/'
      · rw [if_pos hsl] at hok
        exact absurd hok (by simp)
      · rw [if_neg hsl] at hok
        by_cases hx : x = '*'
        · rw [if_pos hx] at hok
          have hadv : lexAdvance .blockStar x = .blockStar := by
            simp [lexAdvance, hx]
          have hinc : lexLineInc .blockStar x = false :=
            lexLineInc_ne _ _ (by rw [hx]; decide)
          rw [hadv, hinc]
          simp only [Bool.false_eq_true, if_false]
          rw [(ih _ _ _ _).2 hok, hcount]
          congr 1
          · simp
            omega
          · simp [hx]
        · rw [if_neg hx] at hok
          have hadv : lexAdvance .blockStar x = .block := by
            simp [lexAdvance, hsl, hx]
          rw [hadv]
          by_cases hxn : x = '\n'
          · have hinc : lexLineInc .blockStar x = true := by
              simp [lexLineInc, hxn]
            rw [hinc]
            simp only [if_true]
            rw [(ih _ _ _ _).1 hok, hcount]
            congr 1
            · simp
              omega
            · simp [hxn]
              omega
          · have hinc : lexLineInc .blockStar x = false :=
              lexLineInc_ne _ _ hxn
            rw [hinc]
            simp only [Bool.false_eq_true, if_false]
            rw [(ih _ _ _ _).1 hok, hcount]
            congr 1
            · simp
              omega
            · simp [hxn]

theorem closeScan_strClose (q : Char) (hq1 : ¬ q = '\\') (hq2 : ¬ q = '\n')
    (rest : List Char) (p l d : Nat) :
    closeScan (q :: rest) p l (.strQ q) d =
      closeScan rest (p + 1) l .code d := by
  have hstep : closeScan (q :: rest) p l (.strQ q) d =
      closeScan rest (p + 1) (if lexLineInc (.strQ q) q then l + 1 else l)
        (lexAdvance (.strQ q) q) d := rfl
  rw [hstep]
  have hadv : lexAdvance (.strQ q) q = .code := by simp [lexAdvance, hq1]
  have hinc : lexLineInc (.strQ q) q = false := lexLineInc_ne _ _ hq2
  rw [hadv, hinc]
  simp only [Bool.false_eq_true, if_false]

theorem closeScan_strPass (q : Char) (hq1 : ¬ q = '\\') (hq2 : ¬ q = '\n') :
    ∀ n c, c.length ≤ n → strOkC q c = true → ∀ rest p l d,
      closeScan (c ++ q :: rest) p l (.strQ q) d =
        closeScan rest (p + c.length + 1) (l + strNl c) .code d := by
  intro n
  induction n with
  | zero =>
    intro c hlen _ rest p l d
    cases c with
    | nil => simpa [strNl] using closeScan_strClose q hq1 hq2 rest p l d
    | cons x c' => simp at hlen
  | succ k ih =>
    intro c hlen hok rest p l d
    cases c with
    | nil => simpa [strNl] using closeScan_strClose q hq1 hq2 rest p l d
    | cons x c' =>
      have hstep : closeScan ((x :: c') ++ q :: rest) p l (.strQ q) d =
          closeScan (c' ++ q :: rest) (p + 1)
            (if lexLineInc (.strQ q) x then l + 1 else l)
            (lexAdvance (.strQ q) x) d := rfl
      cases c' with
      | nil =>
        rw [strOkC] at hok
        by_cases hbs : x = '\\'
        · rw [if_pos hbs] at hok
          exact absurd hok (by simp)
        · rw [if_neg hbs] at hok
          by_cases hxq : x = q
          · rw [if_pos hxq] at hok
            exact absurd hok (by simp)
          · rw [hstep]
            have hadv : lexAdvance (.strQ q) x = .strQ q := by
              simp [lexAdvance, hbs, hxq]
            rw [hadv]
            rw [List.nil_append, closeScan_strClose q hq1 hq2 rest _ _ d]
            by_cases hxn : x = '\n'
            · have hinc : lexLineInc (.strQ q) x = true := by
                simp [lexLineInc, hxn]
              rw [hinc]
              simp only [if_true]
              congr 1
              simp [strNl, hbs, hxn]
            · have hinc : lexLineInc (.strQ q) x = false :=
                lexLineInc_ne _ _ hxn
              rw [hinc]
              simp only [Bool.false_eq_true, if_false]
              congr 1
              simp [strNl, hbs, hxn]
      | cons x2 c'' =>
        rw [strOkC] at hok
        by_cases hbs : x = '\\'
        · rw [if_pos hbs] at hok
          rw [hstep]
          have hadv : lexAdvance (.strQ q) x = .strEsc q := by
            simp [lexAdvance, hbs]
          have hinc : lexLineInc (.strQ q) x = false :=
            lexLineInc_ne _ _ (by rw [hbs]; decide)
          rw [hadv, hinc]
          simp only [Bool.false_eq_true, if_false]
          have hstep2 : closeScan ((x2 :: c'') ++ q :: rest) (p + 1) l
              (.strEsc q) d =
              closeScan (c'' ++ q :: rest) (p + 1 + 1) l (.strQ q) d := rfl
          rw [hstep2, ih c'' (by simp at hlen; omega) hok rest _ _ d]
          congr 1
          · simp
            omega
          · simp [strNl, hbs]
        · rw [if_neg hbs] at hok
          by_cases hxq : x = q
          · rw [if_pos hxq] at hok
            exact absurd hok (by simp)
          · rw [if_neg hxq] at hok
            rw [hstep]
            have hadv : lexAdvance (.strQ q) x = .strQ q := by
              simp [lexAdvance, hbs, hxq]
            rw [hadv, ih (x2 :: c'') (by simp at hlen ⊢; omega) hok
              rest _ _ d]
            have hsn : strNl (x :: x2 :: c'') =
                (if x = '\n' then 1 else 0) + strNl (x2 :: c'') := by
              rw [strNl, if_neg hbs]
            rw [hsn]
            by_cases hxn : x = '\n'
            · have hinc : lexLineInc (.strQ q) x = true := by
                simp [lexLineInc, hxn]
              rw [hinc]
              simp only [if_true, hxn, if_pos]
              congr 1
              · simp
                omega
              · omega
            · have hinc : lexLineInc (.strQ q) x = false :=
                lexLineInc_ne _ _ hxn
              rw [hinc]
              simp only [Bool.false_eq_true, if_false, hxn]
              congr 1
              · simp
                omega
              · simp

theorem openScan_lineCPass :
    ∀ c, '\n' ∉ c → ∀ rest p l st,
      openScan (c ++ rest) p l .lineC st =
        openScan rest (p + c.length) l .lineC st := by
  intro c
  induction c with
  | nil => intro _ rest p l st; simp
  | cons x c' ih =>
    intro hn rest p l st
    have hx : ¬ x = '\n' := by
      intro hc
      exact hn (by simp [hc])
    have hstep : openScan ((x :: c') ++ rest) p l .lineC st =
        openScan (c' ++ rest) (p + 1)
          (if lexLineInc .lineC x then l + 1 else l)
          (lexAdvance .lineC x) st := rfl
    rw [hstep]
    have hadv : lexAdvance .lineC x = .lineC := by
      simp [lexAdvance, hx]
    have hinc : lexLineInc .lineC x = false := lexLineInc_ne _ _ hx
    rw [hadv, hinc]
    simp only [Bool.false_eq_true, if_false]
    rw [ih (by intro hm; exact hn (by simp [hm])) rest (p + 1) l st]
    congr 1
    simp
    omega

theorem openScan_blockPass :
    ∀ c rest p l st,
      (blockOkM false c = true →
        openScan (c ++ '*' :: '/' :: rest) p l .block st =
          openScan rest (p + c.length + 2) (l + c.count '\n') .code st) ∧
      (blockOkM true c = true →
        openScan (c ++ '*' :: '/' :: rest) p l .blockStar st =
          openScan rest (p + c.length + 2) (l + c.count '\n') .code st) := by
  intro c
  induction c with
  | nil =>
    intro rest p l st
    constructor
    · intro _
      rfl
    · intro _
      rfl
  | cons x c' ih =>
    intro rest p l st
    have hcount : (x :: c').count '\n' =
        (if x = '\n' then 1 else 0) + c'.count '\n' := by
      by_cases hx : x = '\n'
      · simp [List.count_cons, hx]
        omega
      · simp [List.count_cons, hx, fun h : '\n' = x => hx h.symm]
    constructor
    · intro hok
      rw [blockOkM] at hok
      have hstep : openScan ((x :: c') ++ '*' :: '/' :: rest) p l
          .block st = openScan (c' ++ '*' :: '/' :: rest) (p + 1)
            (if lexLineInc .block x then l + 1 else l)
            (lexAdvance .block x) st := rfl
      rw [hstep]
      by_cases hx : x = '*'
      · rw [if_pos hx] at hok
        have hadv : lexAdvance .block x = .blockStar := by
          simp [lexAdvance, hx]
        have hinc : lexLineInc .block x = false :=
          lexLineInc_ne _ _ (by rw [hx]; decide)
        rw [hadv, hinc]
        simp only [Bool.false_eq_true, if_false]
        rw [(ih _ _ _ _).2 hok, hcount]
        congr 1
        · simp
          omega
        · simp [hx]
      · rw [if_neg hx] at hok
        have hadv : lexAdvance .block x = .block := by
          simp [lexAdvance, hx]
        rw [hadv]
        by_cases hxn : x = '\n'
        · have hinc : lexLineInc .block x = true := by
            simp [lexLineInc, hxn]
          rw [hinc]
          simp only [if_true]
          rw [(ih _ _ _ _).1 hok, hcount]
          congr 1
          · simp
            omega
          · simp [hxn]
            omega
        · have hinc : lexLineInc .block x = false := lexLineInc_ne _ _ hxn
          rw [hinc]
          simp only [Bool.false_eq_true, if_false]
          rw [(ih _ _ _ _).1 hok, hcount]
          congr 1
          · simp
            omega
          · simp [hxn]
    · intro hok
      rw [blockOkM] at hok
      have hstep : openScan ((x :: c') ++ '*' :: '/' :: rest) p l
          .blockStar st = openScan (c' ++ '*' :: '/' :: rest) (p + 1)
            (if lexLineInc .blockStar x then l + 1 else l)
            (lexAdvance .blockStar x) st := rfl
      rw [hstep]
      by_cases hsl : x = '/'
      · rw [if_pos hsl] at hok
        exact absurd hok (by simp)
      · rw [if_neg hsl] at hok
        by_cases hx : x = '*'
        · rw [if_pos hx] at hok
          have hadv : lexAdvance .blockStar x = .blockStar := by
            simp [lexAdvance, hx]
          have hinc : lexLineInc .blockStar x = false :=
            lexLineInc_ne _ _ (by rw [hx]; decide)
          rw [hadv, hinc]
          simp only [Bool.false_eq_true, if_false]
          rw [(ih _ _ _ _).2 hok, hcount]
          congr 1
          · simp
            omega
          · simp [hx]
        · rw [if_neg hx] at hok
          have hadv : lexAdvance .blockStar x = .block := by
            simp [lexAdvance, hsl, hx]
          rw [hadv]
          by_cases hxn : x = '\n'
          · have hinc : lexLineInc .blockStar x = true := by
              simp [lexLineInc, hxn]
            rw [hinc]
            simp only [if_true]
            rw [(ih _ _ _ _).1 hok, hcount]
            congr 1
            · simp
              omega
            · simp [hxn]
              omega
          · have hinc : lexLineInc .blockStar x = false :=
              lexLineInc_ne _ _ hxn
            rw [hinc]
            simp only [Bool.false_eq_true, if_false]
            rw [(ih _ _ _ _).1 hok, hcount]
            congr 1
            · simp
              omega
            · simp [hxn]

theorem openScan_strClose (q : Char) (hq1 : ¬ q = '\\') (hq2 : ¬ q = '\n')
    (rest : List Char) (p l : Nat) (st : List (Nat × Nat)) :
    openScan (q :: rest) p l (.strQ q) st =
      openScan rest (p + 1) l .code st := by
  have hstep : openScan (q :: rest) p l (.strQ q) st =
      openScan rest (p + 1) (if lexLineInc (.strQ q) q then l + 1 else l)
        (lexAdvance (.strQ q) q) st := rfl
  rw [hstep]
  have hadv : lexAdvance (.strQ q) q = .code := by simp [lexAdvance, hq1]
  have hinc : lexLineInc (.strQ q) q = false := lexLineInc_ne _ _ hq2
  rw [hadv, hinc]
  simp only [Bool.false_eq_true, if_false]

theorem openScan_strPass (q : Char) (hq1 : ¬ q = '\\') (hq2 : ¬ q = '\n') :
    ∀ n c, c.length ≤ n → strOkC q c = true → ∀ rest p l st,
      openScan (c ++ q :: rest) p l (.strQ q) st =
        openScan rest (p + c.length + 1) (l + strNl c) .code st := by
  intro n
  induction n with
  | zero =>
    intro c hlen _ rest p l st
    cases c with
    | nil => simpa [strNl] using openScan_strClose q hq1 hq2 rest p l st
    | cons x c' => simp at hlen
  | succ k ih =>
    intro c hlen hok rest p l st
    cases c with
    | nil => simpa [strNl] using openScan_strClose q hq1 hq2 rest p l st
    | cons x c' =>
      have hstep : openScan ((x :: c') ++ q :: rest) p l (.strQ q) st =
          openScan (c' ++ q :: rest) (p + 1)
            (if lexLineInc (.strQ q) x then l + 1 else l)
            (lexAdvance (.strQ q) x) st := rfl
      cases c' with
      | nil =>
        rw [strOkC] at hok
        by_cases hbs : x = '\\'
        · rw [if_pos hbs] at hok
          exact absurd hok (by simp)
        · rw [if_neg hbs] at hok
          by_cases hxq : x = q
          · rw [if_pos hxq] at hok
            exact absurd hok (by simp)
          · rw [hstep]
            have hadv : lexAdvance (.strQ q) x = .strQ q := by
              simp [lexAdvance, hbs, hxq]
            rw [hadv]
            rw [List.nil_append, openScan_strClose q hq1 hq2 rest _ _ st]
            by_cases hxn : x = '\n'
            · have hinc : lexLineInc (.strQ q) x = true := by
                simp [lexLineInc, hxn]
              rw [hinc]
              simp only [if_true]
              congr 1
              simp [strNl, hbs, hxn]
            · have hinc : lexLineInc (.strQ q) x = false :=
                lexLineInc_ne _ _ hxn
              rw [hinc]
              simp only [Bool.false_eq_true, if_false]
              congr 1
              simp [strNl, hbs, hxn]
      | cons x2 c'' =>
        rw [strOkC] at hok
        by_cases hbs : x = '\\'
        · rw [if_pos hbs] at hok
          rw [hstep]
          have hadv : lexAdvance (.strQ q) x = .strEsc q := by
            simp [lexAdvance, hbs]
          have hinc : lexLineInc (.strQ q) x = false :=
            lexLineInc_ne _ _ (by rw [hbs]; decide)
          rw [hadv, hinc]
          simp only [Bool.false_eq_true, if_false]
          have hstep2 : openScan ((x2 :: c'') ++ q :: rest) (p + 1) l
              (.strEsc q) st =
              openScan (c'' ++ q :: rest) (p + 1 + 1) l (.strQ q) st := rfl
          rw [hstep2, ih c'' (by simp at hlen; omega) hok rest _ _ st]
          congr 1
          · simp
            omega
          · simp [strNl, hbs]
        · rw [if_neg hbs] at hok
          by_cases hxq : x = q
          · rw [if_pos hxq] at hok
            exact absurd hok (by simp)
          · rw [if_neg hxq] at hok
            rw [hstep]
            have hadv : lexAdvance (.strQ q) x = .strQ q := by
              simp [lexAdvance, hbs, hxq]
            rw [hadv, ih (x2 :: c'') (by simp at hlen ⊢; omega) hok
              rest _ _ st]
            have hsn : strNl (x :: x2 :: c'') =
                (if x = '\n' then 1 else 0) + strNl (x2 :: c'') := by
              rw [strNl, if_neg hbs]
            rw [hsn]
            by_cases hxn : x = '\n'
            · have hinc : lexLineInc (.strQ q) x = true := by
                simp [lexLineInc, hxn]
              rw [hinc]
              simp only [if_true, hxn, if_pos]
              congr 1
              · simp
                omega
              · omega
            · have hinc : lexLineInc (.strQ q) x = false :=
                lexLineInc_ne _ _ hxn
              rw [hinc]
              simp only [Bool.false_eq_true, if_false, hxn]
              congr 1
              · simp
                omega
              · simp

theorem closeScan_wrapPass (k : WrapK) (c : List Char) (h : wrapOk k c) :
    ∀ rest p l d, closeScan (mkWrap k c ++ rest) p l .code d =
      closeScan rest (p + (mkWrap k c).length) (l + wrapNl k c) .code d := by
  cases k with
  | lineW =>
    intro rest p l d
    have hstep : closeScan (('/' :: '/' :: (c ++ ['\n'])) ++ rest) p l
        .code d = closeScan ((c ++ ['\n']) ++ rest) (p + 1 + 1) l
          .lineC d := rfl
    have hninc : '\n' ∉ c := h
    show closeScan (('/' :: '/' :: (c ++ ['\n'])) ++ rest) p l .code d = _
    rw [hstep, List.append_assoc]
    rw [closeScan_lineCPass c hninc (['\n'] ++ rest) _ _ _]
    have hstep2 : closeScan (['\n'] ++ rest) (p + 1 + 1 + c.length) l
        .lineC d = closeScan rest (p + 1 + 1 + c.length + 1) (l + 1)
          .code d := rfl
    rw [hstep2]
    have hA : p + 1 + 1 + c.length + 1 =
        p + (mkWrap WrapK.lineW c).length := by
      simp [mkWrap]
      omega
    rw [hA]
    rfl
  | blockW =>
    intro rest p l d
    have hstep : closeScan (('/' :: '*' :: (c ++ ['*', '/'])) ++ rest) p l
        .code d = closeScan ((c ++ ['*', '/']) ++ rest) (p + 1 + 1) l
          .block d := rfl
    have hok : blockOkM false c = true := h
    show closeScan (('/' :: '*' :: (c ++ ['*', '/'])) ++ rest) p l
      .code d = _
    rw [hstep, List.append_assoc]
    have hlist : (['*', '/'] : List Char) ++ rest = '*' :: '/' :: rest := rfl
    rw [hlist, (closeScan_blockPass c rest (p + 1 + 1) l d).1 hok]
    have hA : p + 1 + 1 + c.length + 2 =
        p + (mkWrap WrapK.blockW c).length := by
      simp [mkWrap]
      omega
    rw [hA]
    rfl
  | strW q =>
    intro rest p l d
    obtain ⟨hq, hok⟩ := h
    show closeScan ((q :: (c ++ [q])) ++ rest) p l .code d = _
    rcases hq with rfl | rfl
    · have hstep : closeScan ((squote :: (c ++ [squote])) ++ rest) p l
          .code d = closeScan ((c ++ [squote]) ++ rest) (p + 1) l
            (.strQ squote) d := rfl
      rw [hstep, List.append_assoc]
      have hlist : ([squote] : List Char) ++ rest = squote :: rest := rfl
      rw [hlist, closeScan_strPass squote (by decide) (by decide) c.length
        c (le_refl _) hok rest (p + 1) l d]
      have hA : p + 1 + c.length + 1 =
          p + (mkWrap (WrapK.strW squote) c).length := by
        simp [mkWrap]
        omega
      rw [hA]
      rfl
    · have hstep : closeScan ((dquote :: (c ++ [dquote])) ++ rest) p l
          .code d = closeScan ((c ++ [dquote]) ++ rest) (p + 1) l
            (.strQ dquote) d := rfl
      rw [hstep, List.append_assoc]
      have hlist : ([dquote] : List Char) ++ rest = dquote :: rest := rfl
      rw [hlist, closeScan_strPass dquote (by decide) (by decide) c.length
        c (le_refl _) hok rest (p + 1) l d]
      have hA : p + 1 + c.length + 1 =
          p + (mkWrap (WrapK.strW dquote) c).length := by
        simp [mkWrap]
        omega
      rw [hA]
      rfl

theorem openScan_wrapPass (k : WrapK) (c : List Char) (h : wrapOk k c) :
    ∀ rest p l st, openScan (mkWrap k c ++ rest) p l .code st =
      openScan rest (p + (mkWrap k c).length) (l + wrapNl k c) .code st := by
  cases k with
  | lineW =>
    intro rest p l st
    have hstep : openScan (('/' :: '/' :: (c ++ ['\n'])) ++ rest) p l
        .code st = openScan ((c ++ ['\n']) ++ rest) (p + 1 + 1) l
          .lineC st := rfl
    have hninc : '\n' ∉ c := h
    show openScan (('/' :: '/' :: (c ++ ['\n'])) ++ rest) p l .code st = _
    rw [hstep, List.append_assoc]
    rw [openScan_lineCPass c hninc (['\n'] ++ rest) _ _ _]
    have hstep2 : openScan (['\n'] ++ rest) (p + 1 + 1 + c.length) l
        .lineC st = openScan rest (p + 1 + 1 + c.length + 1) (l + 1)
          .code st := rfl
    rw [hstep2]
    have hA : p + 1 + 1 + c.length + 1 =
        p + (mkWrap WrapK.lineW c).length := by
      simp [mkWrap]
      omega
    rw [hA]
    rfl
  | blockW =>
    intro rest p l st
    have hstep : openScan (('/' :: '*' :: (c ++ ['*', '/'])) ++ rest) p l
        .code st = openScan ((c ++ ['*', '/'])  ++ rest) (p + 1 + 1) l
          .block st := rfl
    have hok : blockOkM false c = true := h
    show openScan (('/' :: '*' :: (c ++ ['*', '/'])) ++ rest) p l
      .code st = _
    rw [hstep, List.append_assoc]
    have hlist : (['*', '/'] : List Char) ++ rest = '*' :: '/' :: rest := rfl
    rw [hlist, (openScan_blockPass c rest (p + 1 + 1) l st).1 hok]
    have hA : p + 1 + 1 + c.length + 2 =
        p + (mkWrap WrapK.blockW c).length := by
      simp [mkWrap]
      omega
    rw [hA]
    rfl
  | strW q =>
    intro rest p l st
    obtain ⟨hq, hok⟩ := h
    show openScan ((q :: (c ++ [q])) ++ rest) p l .code st = _
    rcases hq with rfl | rfl
    · have hstep : openScan ((squote :: (c ++ [squote])) ++ rest) p l
          .code st = openScan ((c ++ [squote]) ++ rest) (p + 1) l
            (.strQ squote) st := rfl
      rw [hstep, List.append_assoc]
      have hlist : ([squote] : List Char) ++ rest = squote :: rest := rfl
      rw [hlist, openScan_strPass squote (by decide) (by decide) c.length
        c (le_refl _) hok rest (p + 1) l st]
      have hA : p + 1 + c.length + 1 =
          p + (mkWrap (WrapK.strW squote) c).length := by
        simp [mkWrap]
        omega
      rw [hA]
      rfl
    · have hstep : openScan ((dquote :: (c ++ [dquote])) ++ rest) p l
          .code st = openScan ((c ++ [dquote]) ++ rest) (p + 1) l
            (.strQ dquote) st := rfl
      rw [hstep, List.append_assoc]
      have hlist : ([dquote] : List Char) ++ rest = dquote :: rest := rfl
      rw [hlist, openScan_strPass dquote (by decide) (by decide) c.length
        c (le_refl _) hok rest (p + 1) l st]
      have hA : p + 1 + c.length + 1 =
          p + (mkWrap (WrapK.strW dquote) c).length := by
        simp [mkWrap]
        omega
      rw [hA]
      rfl

theorem closeScan_shift :
    ∀ cs b l m d, closeScan cs b l m d =
      (closeScan cs 0 l m d).map (fun r => (r.1 + b, r.2)) := by
  intro cs
  induction cs with
  | nil => intro b l m d; rfl
  | cons c cs' ih =>
    intro b l m d
    by_cases h1 : (isCodeCtx m && c = ')') = true
    · by_cases h2 : d = 0
      · have hL : closeScan (c :: cs') b l m d = some (b, l) := by
          rw [closeScan, if_pos h1, if_pos h2]
        have hR : closeScan (c :: cs') 0 l m d = some (0, l) := by
          rw [closeScan, if_pos h1, if_pos h2]
        rw [hL, hR]
        simp
      · have hL : closeScan (c :: cs') b l m d =
            closeScan cs' (b + 1) l (lexAdvance m c) (d - 1) := by
          rw [closeScan, if_pos h1, if_neg h2]
        have hR : closeScan (c :: cs') 0 l m d =
            closeScan cs' (0 + 1) l (lexAdvance m c) (d - 1) := by
          rw [closeScan, if_pos h1, if_neg h2]
        rw [hL, hR, ih (b + 1), ih (0 + 1), Option.map_map]
        congr 1
        funext r
        simp
        omega
    · by_cases h2 : (isCodeCtx m && c = '(') = true
      · have hL : closeScan (c :: cs') b l m d =
            closeScan cs' (b + 1) l (lexAdvance m c) (d + 1) := by
          rw [closeScan, if_neg h1, if_pos h2]
        have hR : closeScan (c :: cs') 0 l m d =
            closeScan cs' (0 + 1) l (lexAdvance m c) (d + 1) := by
          rw [closeScan, if_neg h1, if_pos h2]
        rw [hL, hR, ih (b + 1), ih (0 + 1), Option.map_map]
        congr 1
        funext r
        simp
        omega
      · have hL : closeScan (c :: cs') b l m d =
            closeScan cs' (b + 1) (if lexLineInc m c then l + 1 else l)
              (lexAdvance m c) d := by
          rw [closeScan, if_neg h1, if_neg h2]
        have hR : closeScan (c :: cs') 0 l m d =
            closeScan cs' (0 + 1) (if lexLineInc m c then l + 1 else l)
              (lexAdvance m c) d := by
          rw [closeScan, if_neg h1, if_neg h2]
        rw [hL, hR, ih (b + 1), ih (0 + 1), Option.map_map]
        congr 1
        funext r
        simp
        omega

theorem openScan_rel (xlen b1 b2 : Nat) :
    ∀ cs j l m st1 st2, List.Forall₂ (shiftRel xlen b1 b2) st1 st2 →
      List.Forall₂ (shiftRel xlen b1 b2)
        (openScan cs (b1 + j) l m st1) (openScan cs (b2 + j) l m st2) := by
  intro cs
  induction cs with
  | nil => intro j l m st1 st2 h; simpa [openScan] using h
  | cons c cs' ih =>
    intro j l m st1 st2 hst
    by_cases h1 : (isCodeCtx m && c = '(') = true
    · have hL : openScan (c :: cs') (b1 + j) l m st1 =
          openScan cs' (b1 + j + 1) l (lexAdvance m c)
            ((b1 + j, l) :: st1) := by
        rw [openScan, if_pos h1]
      have hR : openScan (c :: cs') (b2 + j) l m st2 =
          openScan cs' (b2 + j + 1) l (lexAdvance m c)
            ((b2 + j, l) :: st2) := by
        rw [openScan, if_pos h1]
      rw [hL, hR]
      have ha1 : b1 + j + 1 = b1 + (j + 1) := by omega
      have ha2 : b2 + j + 1 = b2 + (j + 1) := by omega
      rw [ha1, ha2]
      refine ih (j + 1) l (lexAdvance m c) _ _ ?_
      refine List.Forall₂.cons ?_ hst
      exact ⟨rfl, Or.inr ⟨by omega, by omega, by omega⟩⟩
    · by_cases h2 : (isCodeCtx m && c = ')') = true
      · have hL : openScan (c :: cs') (b1 + j) l m st1 =
            openScan cs' (b1 + j + 1) l (lexAdvance m c) st1.tail := by
          rw [openScan, if_neg h1, if_pos h2]
        have hR : openScan (c :: cs') (b2 + j) l m st2 =
            openScan cs' (b2 + j + 1) l (lexAdvance m c) st2.tail := by
          rw [openScan, if_neg h1, if_pos h2]
        rw [hL, hR]
        have ha1 : b1 + j + 1 = b1 + (j + 1) := by omega
        have ha2 : b2 + j + 1 = b2 + (j + 1) := by omega
        rw [ha1, ha2]
        refine ih (j + 1) l (lexAdvance m c) _ _ ?_
        cases hst with
        | nil => simp
        | cons hrel htail => simpa using htail
      · have hL : openScan (c :: cs') (b1 + j) l m st1 =
            openScan cs' (b1 + j + 1)
              (if lexLineInc m c then l + 1 else l) (lexAdvance m c)
              st1 := by
          rw [openScan, if_neg h1, if_neg h2]
        have hR : openScan (c :: cs') (b2 + j) l m st2 =
            openScan cs' (b2 + j + 1)
              (if lexLineInc m c then l + 1 else l) (lexAdvance m c)
              st2 := by
          rw [openScan, if_neg h1, if_neg h2]
        rw [hL, hR]
        have ha1 : b1 + j + 1 = b1 + (j + 1) := by omega
        have ha2 : b2 + j + 1 = b2 + (j + 1) := by omega
        rw [ha1, ha2]
        exact ih (j + 1) _ (lexAdvance m c) _ _ hst

theorem forall₂_head {R : Nat × Nat → Nat × Nat → Prop}
    {l1 l2 : List (Nat × Nat)} (h : List.Forall₂ R l1 l2) :
    (l1.head? = none ∧ l2.head? = none) ∨
    ∃ a b, l1.head? = some a ∧ l2.head? = some b ∧ R a b := by
  cases h with
  | nil => exact Or.inl ⟨rfl, rfl⟩
  | cons hr ht => exact Or.inr ⟨_, _, rfl, rfl, hr⟩

/-- C6: parentheses inside a line comment, a block comment or a string
    literal are invisible to both paren-extra detectors.  Substituting
    one comment or string interior for another (same newline count)
    leaves each detector's verdict intact: no issue on both documents,
    or the same offset and line inside the shared prefix, or the same
    line and the same relative offset past the wrapped segment — so the
    wrapped parens neither trigger an issue nor change which
    parenthesis is reported. -/
theorem c6_comment_string_immunity (k : WrapK) (c1 c2 x y : List Char)
    (h1 : wrapOk k c1) (h2 : wrapOk k c2)
    (hnl : wrapNl k c1 = wrapNl k c2)
    (hx : (lexML x (.code, 1)).1 = .code) :
    issueAtRel x (mkWrap k c1) (mkWrap k c2)
      (extended_unmatched_close_paren (x ++ (mkWrap k c1 ++ y)))
      (extended_unmatched_close_paren (x ++ (mkWrap k c2 ++ y))) ∧
    issueAtRel x (mkWrap k c1) (mkWrap k c2)
      (extended_unmatched_open_paren (x ++ (mkWrap k c1 ++ y)))
      (extended_unmatched_open_paren (x ++ (mkWrap k c2 ++ y))) := by
  constructor
  · cases hxs : closeScan x 0 1 .code 0 with
    | some r =>
      obtain ⟨ridx, rln⟩ := r
      have e1 : closeScan (x ++ (mkWrap k c1 ++ y)) 0 1 .code 0 =
          some (ridx, rln) := closeScan_append_some x _ 0 1 .code 0 _ hxs
      have e2 : closeScan (x ++ (mkWrap k c2 ++ y)) 0 1 .code 0 =
          some (ridx, rln) := closeScan_append_some x _ 0 1 .code 0 _ hxs
      have hb := (closeScan_found x 0 1 .code 0 ridx rln hxs).2.1
      have hdet1 : extended_unmatched_close_paren (x ++ (mkWrap k c1 ++ y)) =
          [⟨"paren-extra-close",
            "Unmatched ')' at line " ++ toString rln ++ ".", rln,
            (ridx, ridx + 1), none,
            some (fun t => t.take ridx ++ t.drop (ridx + 1))⟩] := by
        unfold extended_unmatched_close_paren
        rw [e1]
      have hdet2 : extended_unmatched_close_paren (x ++ (mkWrap k c2 ++ y)) =
          [⟨"paren-extra-close",
            "Unmatched ')' at line " ++ toString rln ++ ".", rln,
            (ridx, ridx + 1), none,
            some (fun t => t.take ridx ++ t.drop (ridx + 1))⟩] := by
        unfold extended_unmatched_close_paren
        rw [e2]
      refine Or.inr (Or.inl ⟨ridx, rln, by omega, ?_, ?_⟩)
      · rw [hdet1]
        exact ⟨_, List.mem_singleton_self _, rfl, rfl⟩
      · rw [hdet2]
        exact ⟨_, List.mem_singleton_self _, rfl, rfl⟩
    | none =>
      have hml := closeAfter_ml x .code 1 0
      have hmode : (closeAfter x (.code, 1, 0)).1 = .code := by
        rw [hml.1, hx]
      have e1 : closeScan (x ++ (mkWrap k c1 ++ y)) 0 1 .code 0 =
          (closeScan y 0 ((closeAfter x (.code, 1, 0)).2.1 + wrapNl k c1)
            .code (closeAfter x (.code, 1, 0)).2.2).map
            (fun r => (r.1 + (0 + x.length + (mkWrap k c1).length), r.2)) := by
        rw [closeScan_append_none x _ 0 1 .code 0 hxs, hmode,
          closeScan_wrapPass k c1 h1 y (0 + x.length) _ _,
          closeScan_shift y (0 + x.length + (mkWrap k c1).length) _ .code _]
      have e2 : closeScan (x ++ (mkWrap k c2 ++ y)) 0 1 .code 0 =
          (closeScan y 0 ((closeAfter x (.code, 1, 0)).2.1 + wrapNl k c1)
            .code (closeAfter x (.code, 1, 0)).2.2).map
            (fun r => (r.1 + (0 + x.length + (mkWrap k c2).length), r.2)) := by
        rw [closeScan_append_none x _ 0 1 .code 0 hxs, hmode,
          closeScan_wrapPass k c2 h2 y (0 + x.length) _ _,
          closeScan_shift y (0 + x.length + (mkWrap k c2).length) _ .code _,
          hnl]
      cases hys : closeScan y 0
          ((closeAfter x (.code, 1, 0)).2.1 + wrapNl k c1) .code
          (closeAfter x (.code, 1, 0)).2.2 with
      | none =>
        rw [hys] at e1 e2
        simp only [Option.map_none'] at e1 e2
        have hdet1 : extended_unmatched_close_paren
            (x ++ (mkWrap k c1 ++ y)) = [] := by
          unfold extended_unmatched_close_paren
          rw [e1]
        have hdet2 : extended_unmatched_close_paren
            (x ++ (mkWrap k c2 ++ y)) = [] := by
          unfold extended_unmatched_close_paren
          rw [e2]
        exact Or.inl ⟨hdet1, hdet2⟩
      | some s =>
        obtain ⟨sp, sl⟩ := s
        rw [hys] at e1 e2
        simp only [Option.map_some'] at e1 e2
        have hdet1 : extended_unmatched_close_paren
            (x ++ (mkWrap k c1 ++ y)) =
            [⟨"paren-extra-close",
              "Unmatched ')' at line " ++ toString sl ++ ".", sl,
              (sp + (0 + x.length + (mkWrap k c1).length),
                sp + (0 + x.length + (mkWrap k c1).length) + 1), none,
              some (fun t =>
                t.take (sp + (0 + x.length + (mkWrap k c1).length)) ++
                  t.drop (sp + (0 + x.length + (mkWrap k c1).length) + 1))⟩] := by
          unfold extended_unmatched_close_paren
          rw [e1]
        have hdet2 : extended_unmatched_close_paren
            (x ++ (mkWrap k c2 ++ y)) =
            [⟨"paren-extra-close",
              "Unmatched ')' at line " ++ toString sl ++ ".", sl,
              (sp + (0 + x.length + (mkWrap k c2).length),
                sp + (0 + x.length + (mkWrap k c2).length) + 1), none,
              some (fun t =>
                t.take (sp + (0 + x.length + (mkWrap k c2).length)) ++
                  t.drop (sp + (0 + x.length + (mkWrap k c2).length) + 1))⟩] := by
          unfold extended_unmatched_close_paren
          rw [e2]
        refine Or.inr (Or.inr ⟨sp, sl, ?_, ?_⟩)
        · rw [hdet1]
          refine ⟨_, List.mem_singleton_self _, ?_, rfl⟩
          rw [show sp + (0 + x.length + (mkWrap k c1).length) =
            x.length + (mkWrap k c1).length + sp from by omega]
        · rw [hdet2]
          refine ⟨_, List.mem_singleton_self _, ?_, rfl⟩
          rw [show sp + (0 + x.length + (mkWrap k c2).length) =
            x.length + (mkWrap k c2).length + sp from by omega]
  · have hS : ∀ e ∈ openScan x 0 1 .code [], e.1 < x.length := by
      intro e he
      rcases openScan_entries x 0 1 .code [] e he with h | h
      · simp at h
      · have := h.2.1
        simpa using this
    have e1 : openScan (x ++ (mkWrap k c1 ++ y)) 0 1 .code [] =
        openScan y (0 + x.length + (mkWrap k c1).length)
          ((lexML x (.code, 1)).2 + wrapNl k c1) .code
          (openScan x 0 1 .code []) := by
      rw [openScan_append x _ 0 1 .code [], hx,
        openScan_wrapPass k c1 h1 y _ _ _]
    have e2 : openScan (x ++ (mkWrap k c2 ++ y)) 0 1 .code [] =
        openScan y (0 + x.length + (mkWrap k c2).length)
          ((lexML x (.code, 1)).2 + wrapNl k c1) .code
          (openScan x 0 1 .code []) := by
      rw [openScan_append x _ 0 1 .code [], hx,
        openScan_wrapPass k c2 h2 y _ _ _, hnl]
    have hinit : List.Forall₂
        (shiftRel x.length (0 + x.length + (mkWrap k c1).length)
          (0 + x.length + (mkWrap k c2).length))
        (openScan x 0 1 .code []) (openScan x 0 1 .code []) := by
      rw [List.forall₂_same]
      intro e he
      exact ⟨rfl, Or.inl ⟨rfl, hS e he⟩⟩
    have hrel := openScan_rel x.length
      (0 + x.length + (mkWrap k c1).length)
      (0 + x.length + (mkWrap k c2).length) y 0
      ((lexML x (.code, 1)).2 + wrapNl k c1) .code _ _ hinit
    rw [Nat.add_zero, Nat.add_zero] at hrel
    rcases forall₂_head hrel with ⟨hh1, hh2⟩ | ⟨a, b, hh1, hh2, hab⟩
    · have hdet1 : extended_unmatched_open_paren
          (x ++ (mkWrap k c1 ++ y)) = [] := by
        unfold extended_unmatched_open_paren
        rw [e1, hh1]
      have hdet2 : extended_unmatched_open_paren
          (x ++ (mkWrap k c2 ++ y)) = [] := by
        unfold extended_unmatched_open_paren
        rw [e2, hh2]
      exact Or.inl ⟨hdet1, hdet2⟩
    · obtain ⟨ap, al⟩ := a
      obtain ⟨bp, bl⟩ := b
      have hdet1 : extended_unmatched_open_paren
          (x ++ (mkWrap k c1 ++ y)) =
          [⟨"paren-extra-open",
            "Unmatched '(' at line " ++ toString al ++ ".", al,
            (ap, ap + 1), none,
            some (fun t => t.take ap ++ t.drop (ap + 1))⟩] := by
        unfold extended_unmatched_open_paren
        rw [e1, hh1]
      have hdet2 : extended_unmatched_open_paren
          (x ++ (mkWrap k c2 ++ y)) =
          [⟨"paren-extra-open",
            "Unmatched '(' at line " ++ toString bl ++ ".", bl,
            (bp, bp + 1), none,
            some (fun t => t.take bp ++ t.drop (bp + 1))⟩] := by
        unfold extended_unmatched_open_paren
        rw [e2, hh2]
      have hline : al = bl := hab.1
      rcases hab.2 with ⟨heq, hlt⟩ | ⟨hb1, hb2, hsub⟩
      · refine Or.inr (Or.inl ⟨ap, al, ?_, ?_, ?_⟩)
        · simpa using hlt
        · rw [hdet1]
          exact ⟨_, List.mem_singleton_self _, rfl, rfl⟩
        · rw [hdet2]
          refine ⟨_, List.mem_singleton_self _, ?_, ?_⟩
          · simp only at heq
            rw [← heq]
          · rw [← hline]
      · refine Or.inr (Or.inr
          ⟨ap - (0 + x.length + (mkWrap k c1).length), al, ?_, ?_⟩)
        · rw [hdet1]
          refine ⟨_, List.mem_singleton_self _, ?_, rfl⟩
          simp only at hb1
          show (ap, ap + 1) = _
          simp only [Prod.mk.injEq]
          constructor <;> omega
        · rw [hdet2]
          refine ⟨_, List.mem_singleton_self _, ?_, ?_⟩
          · simp only at hb1 hb2 hsub
            show (bp, bp + 1) = _
            simp only [Prod.mk.injEq]
            constructor <;> omega
          · rw [← hline]

theorem c6_comment_string_immunity_witness :
    (wrapOk WrapK.lineW (("(((").data) ∧ wrapOk WrapK.lineW (("))").data) ∧
      wrapNl WrapK.lineW (("(((").data) = wrapNl WrapK.lineW (("))").data) ∧
      (lexML (("a(b").data) (.code, 1)).1 = .code) ∧
    (issueAtRel (("a(b").data) (mkWrap WrapK.lineW (("(((").data))
        (mkWrap WrapK.lineW (("))").data))
        (extended_unmatched_close_paren
          (("a(b").data ++ (mkWrap WrapK.lineW (("(((").data) ++ (")x").data)))
        (extended_unmatched_close_paren
          (("a(b").data ++ (mkWrap WrapK.lineW (("))").data) ++ (")x").data))) ∧
      issueAtRel (("a(b").data) (mkWrap WrapK.lineW (("(((").data))
        (mkWrap WrapK.lineW (("))").data))
        (extended_unmatched_open_paren
          (("a(b").data ++ (mkWrap WrapK.lineW (("(((").data) ++ (")x").data)))
        (extended_unmatched_open_paren
          (("a(b").data ++ (mkWrap WrapK.lineW (("))").data) ++ (")x").data)))) := by
  refine ⟨⟨?_, ?_, ?_, ?_⟩, ?_⟩
  · show ('\n' ∉ (("(((").data))
    decide
  · show ('\n' ∉ (("))").data))
    decide
  · rfl
  · rfl
  · exact c6_comment_string_immunity WrapK.lineW (("(((").data) (("))").data)
      (("a(b").data) ((")x").data)
      (show ('\n' ∉ (("(((").data)) from by decide)
      (show ('\n' ∉ (("))").data)) from by decide) rfl rfl
